import Mathlib

/-!
Shallow embedding of `scripts/import_ios_translations.py`.

Python strings are modelled as lists of characters (`Str`), Python dicts as
association lists in insertion order (Python 3.7+ dicts preserve insertion
order).  `str.replace` and the two shapes of `re.sub` used by the script are
modelled by fuel-based structural recursions so that every definition
computes by kernel reduction.  The regex class `\d` is modelled as ASCII
digits and `\s` / `str.strip` whitespace as `Char.isWhitespace`; the script
only ever feeds these functions ordinary resource strings, for which the two
notions agree.  File-system effects in `main` are modelled by explicit
booleans recording whether each input file exists.
-/

set_option maxHeartbeats 1000000

abbrev Str := List Char

def L (s : String) : Str := s.toList

-- the apostrophe character, written numerically
def apos : Char := Char.ofNat 39

/-- Python dict lookup (`d[k]` / `d.get(k)`) over an insertion-ordered
association list. -/
def dictLookup {α : Type} (k : Str) : List (Str × α) → Option α
  | [] => none
  | kv :: rest => if kv.1 = k then some kv.2 else dictLookup k rest

/-- First result of `f` over a list, in order; models the `for ... break`
scan in `generate_translated_strings_xml`. -/
def firstMatch {α β : Type} (f : α → Option β) : List α → Option β
  | [] => none
  | a :: rest =>
    match f a with
    | some b => some b
    | none => firstMatch f rest

/-- Worker for `strReplace`; fuel decreases by one each step, the initial
fuel `s.length` is enough because the pattern is never empty in the
script. -/
def strReplaceGo (p r : Str) : Nat → Str → Str
  | 0, s => s
  | _ + 1, [] => []
  | fuel + 1, c :: cs =>
    if p <+: (c :: cs) then r ++ strReplaceGo p r fuel ((c :: cs).drop p.length)
    else c :: strReplaceGo p r fuel cs

/-- Python `s.replace(p, r)`: non-overlapping left-to-right replacement. -/
def strReplace (s p r : Str) : Str := strReplaceGo p r s.length s

/-- Worker for `subSpec`: Python `re.sub(r'%(\d+)\$X', r'%\1$R', s)` for a
terminal character `X = tc` and replacement tail `R = rep`, scanning left to
right.  The digit run after `%` is maximal, exactly as the greedy `\d+`
followed by the non-digit `$` behaves. -/
def subSpecGo (tc : Char) (rep : Str) : Nat → Str → Str
  | 0, s => s
  | _ + 1, [] => []
  | fuel + 1, c :: cs =>
    let ds := cs.takeWhile (·.isDigit)
    let rest := cs.dropWhile (·.isDigit)
    if c = '%' ∧ ds ≠ [] ∧ rest.take 2 = ['$', tc] then
      '%' :: ds ++ '$' :: rep ++ subSpecGo tc rep fuel (rest.drop 2)
    else c :: subSpecGo tc rep fuel cs

def subSpec (tc : Char) (rep : Str) (s : Str) : Str := subSpecGo tc rep s.length s

/-- `convert_ios_format_to_android` from the script: positional `%N$@` to
`%N$s`, then `%@` to `%s`, then the long-integer specifiers to `%d`. -/
def convert_ios_format_to_android (text : Str) : Str :=
  if text = [] then text
  else
    let r1 := subSpec '@' (L "s") text
    let r2 := strReplace r1 (L "%@") (L "%s")
    let r3 := strReplace r2 (L "%lld") (L "%d")
    let r4 := strReplace r3 (L "%ld") (L "%d")
    let r5 := strReplace r4 (L "%llu") (L "%d")
    let r6 := strReplace r5 (L "%lu") (L "%d")
    strReplace r6 (L "%li") (L "%d")

/-- `escape_android_xml` from the script. -/
def escape_android_xml (text : Str) : Str :=
  if text = [] then text
  else
    let t1 := strReplace text (L "&") (L "&amp;")
    let t2 := strReplace t1 (L "<") (L "&lt;")
    let t3 := strReplace t2 (L ">") (L "&gt;")
    let t4 := strReplace t3 [apos] ['\\', apos]
    let t5 := strReplace t4 ['\"'] ['\\', '\"']
    if t5.take 1 = ['@'] then '\\' :: t5 else t5

/-- `unescape_android_xml` from the script. -/
def unescape_android_xml (text : Str) : Str :=
  let t1 := strReplace text ['\\', apos] [apos]
  let t2 := strReplace t1 ['\\', '\"'] ['\"']
  let t3 := strReplace t2 (L "&amp;") (L "&")
  let t4 := strReplace t3 (L "&lt;") (L "<")
  let t5 := strReplace t4 (L "&gt;") (L ">")
  if t5.take 2 = ['\\', '@'] then t5.drop 1 else t5

/-- Python `str.strip()`. -/
def pyStrip (s : Str) : Str :=
  ((s.dropWhile (·.isWhitespace)).reverse.dropWhile (·.isWhitespace)).reverse

/-- Worker modelling `re.sub(r'\s+', ' ', s)`. -/
def collapseWsGo : Nat → Str → Str
  | 0, s => s
  | _ + 1, [] => []
  | fuel + 1, c :: cs =>
    if c.isWhitespace then ' ' :: collapseWsGo fuel (cs.dropWhile (·.isWhitespace))
    else c :: collapseWsGo fuel cs

def collapseWs (s : Str) : Str := collapseWsGo s.length s

/-- `normalize_for_matching` from the script: strip, then collapse internal
whitespace runs to a single space. -/
def normalize_for_matching (text : Str) : Str := collapseWs (pyStrip text)

/-- The Android-to-iOS placeholder rewriting used (twice, verbatim) by the
script at lines 144-146 and 218-220: `%s` to `%@`, `%d` to `%lld`, then the
positional variants. -/
def genericize (raw : Str) : Str :=
  let g1 := strReplace raw (L "%s") (L "%@")
  let g2 := strReplace g1 (L "%d") (L "%lld")
  let g3 := subSpec 's' (L "@") g2
  subSpec 'd' (L "lld") g3

/-- The `stringUnit` JSON object: `value` may be absent. -/
structure StringUnit where
  value : Option Str
deriving DecidableEq

/-- One locale's localization object: `stringUnit` may be absent.  (Named
`LocEntry` because Mathlib already has a `Localization`.) -/
structure LocEntry where
  stringUnit : Option StringUnit
deriving DecidableEq

/-- One record of the `strings` dict of the xcstrings file. -/
structure IosEntry where
  localizations : List (Str × LocEntry)
deriving DecidableEq

/-- The chain `entry.get('localizations', {}).get(lang, {}).get('stringUnit',
{})` followed by the truthiness test `if su.get('value'):` — a translation
is produced only when a non-empty value is present. -/
def getTranslation (e : IosEntry) (lang : Str) : Option Str :=
  match dictLookup lang e.localizations with
  | none => none
  | some loc =>
    match loc.stringUnit with
    | none => none
    | some su =>
      match su.value with
      | none => none
      | some v => if v = [] then none else some v

/-- The per-identifier matcher of `generate_translated_strings_xml`
(lines 188-227): exact lookup, then normalized linear scan, then lookup of
the placeholder-genericized text, mirroring the script's control flow. -/
def matchTranslation (ios_strings : List (Str × IosEntry)) (target_lang : Str)
    (english_value : Str) : Option Str :=
  let raw_english := unescape_android_xml english_value
  let ios_key := raw_english
  let normalized_key := normalize_for_matching ios_key
  let t1 : Option Str :=
    match dictLookup ios_key ios_strings with
    | some e => getTranslation e target_lang
    | none => none
  match t1 with
  | some t => some t
  | none =>
    let t2 := firstMatch (fun kv =>
      if normalize_for_matching kv.1 = normalized_key then getTranslation kv.2 target_lang
      else none) ios_strings
    match t2 with
    | some t => some t
    | none =>
      let ios_format := genericize raw_english
      match dictLookup ios_format ios_strings with
      | some e => getTranslation e target_lang
      | none => none

/-- Spec wording, step 1: "the destination's literal English text
(unescaped) is looked up directly as a source identifier". -/
def exactMatchSpec (ios_strings : List (Str × IosEntry)) (target_lang key : Str) :
    Option Str :=
  (dictLookup key ios_strings).bind fun e => getTranslation e target_lang

/-- Spec wording, step 2: "linear scan of all source identifiers; the first
whose normalized text equals the normalized destination text is selected",
accepted only with a non-empty value for the locale. -/
def normalizedMatchSpec (ios_strings : List (Str × IosEntry)) (target_lang key : Str) :
    Option Str :=
  firstMatch (fun kv =>
    if normalize_for_matching kv.1 = normalize_for_matching key then
      getTranslation kv.2 target_lang
    else none) ios_strings

/-- Spec wording, step 3: "the destination's English text, with its
placeholders rewritten to source-style placeholders, is looked up directly
as a source identifier". -/
def genericMatchSpec (ios_strings : List (Str × IosEntry)) (target_lang key : Str) :
    Option Str :=
  (dictLookup (genericize key) ios_strings).bind fun e => getTranslation e target_lang

/-- First loop of `generate_translated_strings_xml` (lines 183-235):
returns (translations, matched_count, unmatched_names). -/
def genLoop (ios_strings : List (Str × IosEntry)) (target_lang : Str) :
    List (Str × Str) → List (Str × Str) × Nat × List Str
  | [] => ([], 0, [])
  | (name, english_value) :: rest =>
    if name = L "app_name" then genLoop ios_strings target_lang rest
    else
      match matchTranslation ios_strings target_lang english_value with
      | some t =>
        let acc := genLoop ios_strings target_lang rest
        ((name, convert_ios_format_to_android t) :: acc.1, acc.2.1 + 1, acc.2.2)
      | none =>
        let acc := genLoop ios_strings target_lang rest
        (acc.1, acc.2.1, name :: acc.2.2)

/-- One output line: `    <string name="{name}">{escaped}</string>`. -/
def xmlLine (name escapedText : Str) : Str :=
  L "    <string name=\"" ++ name ++ L "\">" ++ escapedText ++ L "</string>"

structure GenResult where
  translations : List (Str × Str)
  matched_count : Nat
  unmatched_names : List Str
  entries : List (Str × Str)
  lines : List Str
  xml : Str
deriving DecidableEq

/-- `generate_translated_strings_xml` from the script.  `entries` is the
list of (identifier, escaped text) pairs rendered into the document, in
iteration order; `xml` is the returned string.  The `text_to_names`
parameter is accepted and, exactly as in the script, never read. -/
def generate_translated_strings_xml (android_strings : List (Str × Str))
    (ios_strings : List (Str × IosEntry)) (target_lang : Str)
    ( text_to_names : List (Str × List Str)) : GenResult :=
  let acc := genLoop ios_strings target_lang android_strings
  let translations := acc.1
  let entries := android_strings.filterMap fun kv =>
    if kv.1 = L "app_name" then none
    else
      match dictLookup kv.1 translations with
      | some t => some (kv.1, escape_android_xml t)
      | none => none
  let lines := L "<?xml version=\"1.0\" encoding=\"utf-8\"?>" :: L "<resources>" ::
    (entries.map fun e => xmlLine e.1 e.2) ++ [L "</resources>", []]
  { translations := translations
    matched_count := acc.2.1
    unmatched_names := acc.2.2
    entries := entries
    lines := lines
    xml := List.intercalate ['\n'] lines }

/-- Helper for `build_english_to_android_map`: append `v` to the bucket of
`k`, creating the bucket at the end on first insertion (Python dict-of-list
behaviour). -/
def addTo (m : List (Str × List Str)) (k v : Str) : List (Str × List Str) :=
  if (dictLookup k m).isSome then
    m.map fun kv => if kv.1 = k then (kv.1, kv.2 ++ [v]) else kv
  else m ++ [(k, [v])]

/-- `build_english_to_android_map` from the script. -/
def build_english_to_android_map (android_strings : List (Str × Str)) :
    List (Str × List Str) :=
  android_strings.foldl (fun m kv =>
    let raw := unescape_android_xml kv.2
    let generic := genericize raw
    let normalized := normalize_for_matching raw
    let normalized_generic := normalize_for_matching generic
    let m1 := addTo m normalized kv.1
    if normalized_generic ≠ normalized then addTo m1 normalized_generic kv.1 else m1) []

/-- The fixed locale table of the script. -/
def ANDROID_LOCALE_DIRS : List (Str × Str) :=
  [(L "de", L "values-de"), (L "fr", L "values-fr"), (L "hi", L "values-hi"),
   (L "it", L "values-it"), (L "ja", L "values-ja"), (L "ko", L "values-ko"),
   (L "nb", L "values-b+nb"), (L "nl", L "values-nl"),
   (L "pt-BR", L "values-b+pt+BR"), (L "ro", L "values-ro"),
   (L "ru", L "values-ru"), (L "zh-Hans", L "values-b+zh+Hans"),
   (L "zh-Hant", L "values-b+zh+Hant")]

/-- `main` from the script, with the file system abstracted to two booleans
and the effects of a run summarised as (exit code, printed error messages,
directories a strings.xml is written into).  Progress messages are not
modelled.  The existence checks happen, in the script's order, before any
output is written. -/
def main_model (ios_path android_path : Str) (ios_exists android_exists : Bool)
    (locale_dirs : List Str) : Nat × List Str × List Str :=
  if ios_exists = false then
    (1, [L "ERROR: iOS xcstrings not found at " ++ ios_path], [])
  else if android_exists = false then
    (1, [L "ERROR: Android strings.xml not found at " ++ android_path], [])
  else (0, [], locale_dirs)

/-- `q` occurs nowhere in `s` (no suffix of `s` starts with `q`). -/
def noOcc (q s : Str) : Prop := ∀ t, t <:+ s → ¬ q <+: t

/-- No positional pattern `%<digits>$@` occurs in `s`. -/
def NoPos (s : Str) : Prop :=
  ∀ ds : Str, ds ≠ [] → (∀ c ∈ ds, c.isDigit = true) →
    noOcc ('%' :: (ds ++ ['$', '@'])) s

/-- `s` contains none of the placeholder patterns that
`convert_ios_format_to_android` rewrites. -/
def cleanStr (s : Str) : Prop :=
  NoPos s ∧ noOcc (L "%@") s ∧ noOcc (L "%lld") s ∧ noOcc (L "%ld") s ∧
    noOcc (L "%llu") s ∧ noOcc (L "%lu") s ∧ noOcc (L "%li") s

/-- `t` starts with one of the three entities emitted by
`escape_android_xml`. -/
def patOk (t : Str) : Prop := L "&amp;" <+: t ∨ L "&lt;" <+: t ∨ L "&gt;" <+: t

/-- Every ampersand in `e` starts one of the entities `&amp;`, `&lt;`,
`&gt;`. -/
def AmpOk (e : Str) : Prop := ∀ t, t <:+ e → t.head? = some '&' → patOk t

/-- Character-wise expansion; `strReplace` with a single-character pattern
is exactly such an expansion. -/
def charExpand (f : Char → Str) : Str → Str
  | [] => []
  | c :: cs => f c ++ charExpand f cs

def escF1 : Char → Str := fun c => if c = '&' then L "&amp;" else [c]
def escF2 : Char → Str := fun c => if c = '<' then L "&lt;" else [c]
def escF3 : Char → Str := fun c => if c = '>' then L "&gt;" else [c]
def escF4 : Char → Str := fun c => if c = apos then ['\\', apos] else [c]
def escF5 : Char → Str := fun c => if c = '\"' then ['\\', '\"'] else [c]

/-- Concrete fixture: one iOS record translating "Hello" to German. -/
def iosW : List (Str × IosEntry) :=
  [(L "Hello", ⟨[(L "de", ⟨some ⟨some (L "Hallo")⟩⟩)]⟩)]

/-- Concrete fixture: the app name, one matchable entry, one unmatchable
entry. -/
def androidW : List (Str × Str) :=
  [(L "app_name", L "TrackSpeed"), (L "greet", L "Hello"), (L "missing", L "Bye")]

def genW : GenResult := generate_translated_strings_xml androidW iosW (L "de") []

/-- Concrete fixture: two destination identifiers with the same English
text. -/
def androidOkW : List (Str × Str) := [(L "ok1", L "OK"), (L "ok2", L "OK")]

def iosOkW : List (Str × IosEntry) :=
  [(L "OK", ⟨[(L "de", ⟨some ⟨some (L "Okay")⟩⟩)]⟩)]

def genOkW : GenResult := generate_translated_strings_xml androidOkW iosOkW (L "de") []

/-! ### Occurrence infrastructure -/

theorem noOcc_iff_no_occurrence {q s : Str} : noOcc q s ↔ ¬ q <:+: s := by
  constructor
  · intro h hinf
    rcases List.infix_iff_prefix_suffix.mp hinf with ⟨t, hp, hs⟩
    exact h t hs hp
  · intro h t ht hq
    exact h (List.infix_iff_prefix_suffix.mpr ⟨t, hq, ht⟩)

theorem noOcc_nil {q : Str} (hq : q ≠ []) : noOcc q [] := by
  intro t ht hp
  rw [List.suffix_nil] at ht
  subst ht
  exact hq (List.prefix_nil.mp hp)

theorem noOcc_cons {q : Str} {c : Char} {s : Str} :
    noOcc q (c :: s) ↔ ¬ q <+: (c :: s) ∧ noOcc q s := by
  constructor
  · intro h
    exact ⟨h _ (List.suffix_refl _),
      fun t ht hp => h t (ht.trans (List.suffix_cons c s)) hp⟩
  · rintro ⟨h1, h2⟩ t ht hp
    rcases List.suffix_cons_iff.mp ht with h | h
    · subst h; exact h1 hp
    · exact h2 t h hp

theorem noOcc_of_suffix {q s t : Str} (ht : t <:+ s) (h : noOcc q s) : noOcc q t :=
  fun u hu hp => h u (hu.trans ht) hp

theorem noOcc_append_left {q qt A X : Str} (hq : q = '%' :: qt)
    (hA : ∀ c ∈ A, c ≠ '%') (hX : noOcc q X) : noOcc q (A ++ X) := by
  induction A with
  | nil => simpa using hX
  | cons a A ih =>
    rw [List.cons_append, noOcc_cons]
    refine ⟨?_, ih fun c hc => hA c (List.mem_cons_of_mem _ hc)⟩
    intro hp
    subst hq
    rcases List.cons_prefix_cons.mp hp with ⟨h1, _⟩
    exact hA a (List.mem_cons_self _ _) h1.symm

theorem isDigit_ne_percent {c : Char} (h : c.isDigit = true) : c ≠ '%' := by
  intro h2; subst h2; simp at h

/-! ### `strReplace` lemmas -/

theorem strReplaceGo_nil (p r : Str) (fuel : Nat) : strReplaceGo p r fuel [] = [] := by
  cases fuel <;> rfl

theorem strReplaceGo_eq_self {p r : Str} :
    ∀ fuel s, noOcc p s → s.length ≤ fuel → strReplaceGo p r fuel s = s := by
  intro fuel
  induction fuel with
  | zero => intro s _ _; rfl
  | succ n ih =>
    intro s hno hlen
    match s with
    | [] => rfl
    | c :: cs =>
      show (if p <+: (c :: cs) then _ else _) = _
      rw [if_neg (noOcc_cons.mp hno).1]
      rw [ih cs (noOcc_cons.mp hno).2 (Nat.le_of_succ_le_succ hlen)]

theorem strReplace_eq_self {p r s : Str} (h : noOcc p s) :
    strReplace s p r = s :=
  strReplaceGo_eq_self s.length s h (Nat.le_refl _)

theorem prefix_of_strReplaceGo {p rt : Str} (hp : p ≠ []) :
    ∀ fuel s t, '%' ∉ t → t <+: strReplaceGo p ('%' :: rt) fuel s →
      s.length ≤ fuel → t <+: s := by
  intro fuel
  induction fuel with
  | zero =>
    intro s t _ htp hlen
    exact htp
  | succ n ih =>
    intro s t hmem htp hlen
    match s with
    | [] =>
      rw [strReplaceGo_nil] at htp
      rw [List.prefix_nil.mp htp]
    | c :: cs =>
      by_cases hpre : p <+: (c :: cs)
      · rw [show strReplaceGo p ('%' :: rt) (n+1) (c :: cs) =
          if p <+: (c :: cs) then ('%' :: rt) ++ strReplaceGo p ('%' :: rt) n ((c :: cs).drop p.length)
          else c :: strReplaceGo p ('%' :: rt) n cs from rfl, if_pos hpre] at htp
        match t with
        | [] => exact List.nil_prefix
        | t0 :: t' =>
          rcases List.cons_prefix_cons.mp htp with ⟨h1, _⟩
          exact absurd (h1 ▸ List.mem_cons_self t0 t') hmem
      · rw [show strReplaceGo p ('%' :: rt) (n+1) (c :: cs) =
          if p <+: (c :: cs) then ('%' :: rt) ++ strReplaceGo p ('%' :: rt) n ((c :: cs).drop p.length)
          else c :: strReplaceGo p ('%' :: rt) n cs from rfl, if_neg hpre] at htp
        match t with
        | [] => exact List.nil_prefix
        | t0 :: t' =>
          rcases List.cons_prefix_cons.mp htp with ⟨h1, h2⟩
          have h3 : t' <+: cs :=
            ih cs t' (fun hm => hmem (List.mem_cons_of_mem _ hm)) h2
              (Nat.le_of_succ_le_succ hlen)
          exact List.cons_prefix_cons.mpr ⟨h1, h3⟩

theorem noOcc_self_strReplaceGo {p1 r1 : Char} {pt rt : Str}
    (hpm : '%' ∉ p1 :: pt) (hrm : '%' ∉ r1 :: rt) (hne : p1 ≠ r1) :
    ∀ fuel s, s.length ≤ fuel →
      noOcc ('%' :: p1 :: pt) (strReplaceGo ('%' :: p1 :: pt) ('%' :: r1 :: rt) fuel s) := by
  intro fuel
  induction fuel with
  | zero =>
    intro s hlen
    have : s = [] := List.length_eq_zero.mp (Nat.le_zero.mp hlen)
    subst this
    exact noOcc_nil (by simp)
  | succ n ih =>
    intro s hlen
    match s with
    | [] =>
      rw [strReplaceGo_nil]
      exact noOcc_nil (by simp)
    | c :: cs =>
      by_cases hpre : ('%' :: p1 :: pt) <+: (c :: cs)
      · rw [show strReplaceGo ('%' :: p1 :: pt) ('%' :: r1 :: rt) (n+1) (c :: cs) =
          if ('%' :: p1 :: pt) <+: (c :: cs) then
            ('%' :: r1 :: rt) ++ strReplaceGo ('%' :: p1 :: pt) ('%' :: r1 :: rt) n
              ((c :: cs).drop ('%' :: p1 :: pt).length)
          else c :: strReplaceGo ('%' :: p1 :: pt) ('%' :: r1 :: rt) n cs from rfl,
          if_pos hpre]
        have hlen2 : ((c :: cs).drop ('%' :: p1 :: pt).length).length ≤ n := by
          have h1 : (1:Nat) ≤ ('%' :: p1 :: pt).length := by simp
          have h2 : (c :: cs).length ≤ n + 1 := hlen
          rw [List.length_drop]
          omega
        have hX := ih _ hlen2
        rw [List.cons_append]
        rw [noOcc_cons]
        constructor
        · intro hq
          rcases List.cons_prefix_cons.mp hq with ⟨_, hq2⟩
          rcases List.cons_prefix_cons.mp hq2 with ⟨h2, _⟩
          exact hne h2
        · exact noOcc_append_left rfl (fun c hc hc2 => hrm (hc2 ▸ hc)) hX
      · rw [show strReplaceGo ('%' :: p1 :: pt) ('%' :: r1 :: rt) (n+1) (c :: cs) =
          if ('%' :: p1 :: pt) <+: (c :: cs) then
            ('%' :: r1 :: rt) ++ strReplaceGo ('%' :: p1 :: pt) ('%' :: r1 :: rt) n
              ((c :: cs).drop ('%' :: p1 :: pt).length)
          else c :: strReplaceGo ('%' :: p1 :: pt) ('%' :: r1 :: rt) n cs from rfl,
          if_neg hpre]
        rw [noOcc_cons]
        refine ⟨?_, ih cs (Nat.le_of_succ_le_succ hlen)⟩
        intro hq
        rcases List.cons_prefix_cons.mp hq with ⟨h1, h2⟩
        have h3 : (p1 :: pt) <+: cs :=
          prefix_of_strReplaceGo (by simp) n cs _ hpm h2 (Nat.le_of_succ_le_succ hlen)
        exact hpre (h1 ▸ List.cons_prefix_cons.mpr ⟨rfl, h3⟩)

theorem noOcc_strReplaceGo_of_noOcc {p : Str} {q1 r1 : Char} {qt rt : Str}
    (hp : p ≠ []) (hqm : '%' ∉ q1 :: qt) (hrm : '%' ∉ r1 :: rt) (hne : q1 ≠ r1) :
    ∀ fuel s, noOcc ('%' :: q1 :: qt) s → s.length ≤ fuel →
      noOcc ('%' :: q1 :: qt) (strReplaceGo p ('%' :: r1 :: rt) fuel s) := by
  intro fuel
  induction fuel with
  | zero =>
    intro s h hlen
    have : s = [] := List.length_eq_zero.mp (Nat.le_zero.mp hlen)
    subst this
    exact noOcc_nil (by simp)
  | succ n ih =>
    intro s h hlen
    match s with
    | [] =>
      rw [strReplaceGo_nil]
      exact noOcc_nil (by simp)
    | c :: cs =>
      by_cases hpre : p <+: (c :: cs)
      · rw [show strReplaceGo p ('%' :: r1 :: rt) (n+1) (c :: cs) =
          if p <+: (c :: cs) then
            ('%' :: r1 :: rt) ++ strReplaceGo p ('%' :: r1 :: rt) n ((c :: cs).drop p.length)
          else c :: strReplaceGo p ('%' :: r1 :: rt) n cs from rfl, if_pos hpre]
        have hlen2 : ((c :: cs).drop p.length).length ≤ n := by
          rw [List.length_drop]
          have : 1 ≤ p.length := List.length_pos.mpr hp
          omega
        have hX := ih _ (noOcc_of_suffix (List.drop_suffix _ _) h) hlen2
        rw [List.cons_append, noOcc_cons]
        constructor
        · intro hq
          rcases List.cons_prefix_cons.mp hq with ⟨_, hq2⟩
          rcases List.cons_prefix_cons.mp hq2 with ⟨h2, _⟩
          exact hne h2
        · exact noOcc_append_left rfl (fun c hc hc2 => hrm (hc2 ▸ hc)) hX
      · rw [show strReplaceGo p ('%' :: r1 :: rt) (n+1) (c :: cs) =
          if p <+: (c :: cs) then
            ('%' :: r1 :: rt) ++ strReplaceGo p ('%' :: r1 :: rt) n ((c :: cs).drop p.length)
          else c :: strReplaceGo p ('%' :: r1 :: rt) n cs from rfl, if_neg hpre]
        rw [noOcc_cons]
        refine ⟨?_, ih cs (noOcc_cons.mp h).2 (Nat.le_of_succ_le_succ hlen)⟩
        intro hq
        rcases List.cons_prefix_cons.mp hq with ⟨h1, h2⟩
        have h3 : (q1 :: qt) <+: cs :=
          prefix_of_strReplaceGo hp n cs _ hqm h2 (Nat.le_of_succ_le_succ hlen)
        exact (noOcc_cons.mp h).1 (h1 ▸ List.cons_prefix_cons.mpr ⟨rfl, h3⟩)

/-! ### `subSpec` lemmas -/

theorem subSpecGo_nil (tc : Char) (rep : Str) (fuel : Nat) :
    subSpecGo tc rep fuel [] = [] := by
  cases fuel <;> rfl

theorem subSpecGo_cons (tc : Char) (rep : Str) (n : Nat) (c : Char) (cs : Str) :
    subSpecGo tc rep (n+1) (c :: cs) =
      if c = '%' ∧ cs.takeWhile (·.isDigit) ≠ [] ∧
          (cs.dropWhile (·.isDigit)).take 2 = ['$', tc] then
        '%' :: cs.takeWhile (·.isDigit) ++ '$' :: rep ++
          subSpecGo tc rep n ((cs.dropWhile (·.isDigit)).drop 2)
      else c :: subSpecGo tc rep n cs := rfl

theorem take_two_shape {l : Str} {a b : Char} (h : l.take 2 = [a, b]) :
    l = a :: b :: l.drop 2 := by
  match l with
  | [] => simp at h
  | [x] => simp at h
  | x :: y :: rest =>
    simp [List.take] at h
    obtain ⟨h1, h2⟩ := h
    subst h1
    subst h2
    rfl

theorem takeWhile_digits {ds u : Str} (hds : ∀ c ∈ ds, c.isDigit = true) :
    (ds ++ '$' :: u).takeWhile (·.isDigit) = ds ∧
      (ds ++ '$' :: u).dropWhile (·.isDigit) = '$' :: u := by
  induction ds with
  | nil =>
    constructor
    · rw [List.nil_append, List.takeWhile_cons]
      simp
    · rw [List.nil_append, List.dropWhile_cons]
      simp
  | cons d rest ih =>
    have hd : d.isDigit = true := hds d (List.mem_cons_self _ _)
    have ihr := ih fun c hc => hds c (List.mem_cons_of_mem _ hc)
    constructor
    · rw [List.cons_append, List.takeWhile_cons]
      simp only [hd, if_true, ihr.1]
    · rw [List.cons_append, List.dropWhile_cons]
      simp only [hd, if_true, ihr.2]

theorem digits_dollar_distinct {ds ds' u v : Str}
    (hds : ∀ c ∈ ds, c.isDigit = true) (hds' : ∀ c ∈ ds', c.isDigit = true) :
    ¬ (ds' ++ '$' :: '@' :: u) <+: (ds ++ '$' :: 's' :: v) := by
  induction ds generalizing ds' with
  | nil =>
    cases ds' with
    | nil =>
      intro hp
      simp only [List.nil_append] at hp
      rcases List.cons_prefix_cons.mp hp with ⟨_, hp2⟩
      rcases List.cons_prefix_cons.mp hp2 with ⟨h2, _⟩
      exact absurd h2 (by decide)
    | cons d' rest' =>
      intro hp
      simp only [List.nil_append, List.cons_append] at hp
      rcases List.cons_prefix_cons.mp hp with ⟨h1, _⟩
      have hdig := hds' d' (List.mem_cons_self _ _)
      rw [h1] at hdig
      exact absurd hdig (by decide)
  | cons d rest ih =>
    cases ds' with
    | nil =>
      intro hp
      simp only [List.nil_append, List.cons_append] at hp
      rcases List.cons_prefix_cons.mp hp with ⟨h1, _⟩
      have hdig := hds d (List.mem_cons_self _ _)
      rw [← h1] at hdig
      exact absurd hdig (by decide)
    | cons d' rest' =>
      intro hp
      simp only [List.cons_append] at hp
      rcases List.cons_prefix_cons.mp hp with ⟨_, h2⟩
      exact ih (fun c hc => hds c (List.mem_cons_of_mem _ hc))
        (fun c hc => hds' c (List.mem_cons_of_mem _ hc)) h2

theorem prefix_of_subSpecGo {tc : Char} {rep : Str} :
    ∀ fuel s t, '%' ∉ t → t <+: subSpecGo tc rep fuel s → s.length ≤ fuel →
      t <+: s := by
  intro fuel
  induction fuel with
  | zero =>
    intro s t _ htp _
    exact htp
  | succ n ih =>
    intro s t hmem htp hlen
    match s with
    | [] =>
      rw [subSpecGo_nil] at htp
      rw [List.prefix_nil.mp htp]
    | c :: cs =>
      rw [subSpecGo_cons] at htp
      by_cases hcond : c = '%' ∧ cs.takeWhile (·.isDigit) ≠ [] ∧
          (cs.dropWhile (·.isDigit)).take 2 = ['$', tc]
      · rw [if_pos hcond] at htp
        match t with
        | [] => exact List.nil_prefix
        | t0 :: t' =>
          rcases List.cons_prefix_cons.mp htp with ⟨h1, _⟩
          exact absurd (h1 ▸ List.mem_cons_self t0 t') hmem
      · rw [if_neg hcond] at htp
        match t with
        | [] => exact List.nil_prefix
        | t0 :: t' =>
          rcases List.cons_prefix_cons.mp htp with ⟨h1, h2⟩
          have h3 : t' <+: cs :=
            ih cs t' (fun hm => hmem (List.mem_cons_of_mem _ hm)) h2
              (Nat.le_of_succ_le_succ hlen)
          exact List.cons_prefix_cons.mpr ⟨h1, h3⟩

theorem subSpec_out_shape (tW X : Str) :
    '%' :: tW ++ '$' :: L "s" ++ X = '%' :: ((tW ++ ['$', 's']) ++ X) := rfl

theorem append_two_shape (tW X : Str) :
    (tW ++ ['$', 's']) ++ X = tW ++ '$' :: 's' :: X := by
  rw [List.append_assoc]
  rfl

theorem NoPos_nil : NoPos [] := by
  intro ds h1 _
  exact noOcc_nil (by simp)

theorem NoPos_of_suffix {s t : Str} (ht : t <:+ s) (h : NoPos s) : NoPos t :=
  fun ds h1 h2 => noOcc_of_suffix ht (h ds h1 h2)

theorem drop_two_sub_len {c : Char} {cs : Str} {n : Nat} (hlen : (c :: cs).length ≤ n + 1) :
    ((cs.dropWhile (·.isDigit)).drop 2).length ≤ n := by
  have h1 : (cs.dropWhile (·.isDigit)).length ≤ cs.length :=
    (List.dropWhile_suffix _).length_le
  have h2 : cs.length + 1 ≤ n + 1 := by simpa using hlen
  rw [List.length_drop]
  omega

theorem subSpecGo_eq_self :
    ∀ fuel s, NoPos s → s.length ≤ fuel → subSpecGo '@' (L "s") fuel s = s := by
  intro fuel
  induction fuel with
  | zero =>
    intro s _ _
    rfl
  | succ n ih =>
    intro s hnp hlen
    match s with
    | [] => rfl
    | c :: cs =>
      rw [subSpecGo_cons]
      by_cases hcond : c = '%' ∧ cs.takeWhile (·.isDigit) ≠ [] ∧
          (cs.dropWhile (·.isDigit)).take 2 = ['$', '@']
      · exfalso
        obtain ⟨hc, hds, htake⟩ := hcond
        have hdig : ∀ x ∈ cs.takeWhile (·.isDigit), x.isDigit = true :=
          fun x hx => List.mem_takeWhile_imp hx
        have hdw : cs.dropWhile (·.isDigit) =
            '$' :: '@' :: (cs.dropWhile (·.isDigit)).drop 2 := take_two_shape htake
        have hsplit : cs.takeWhile (·.isDigit) ++ cs.dropWhile (·.isDigit) = cs :=
          List.takeWhile_append_dropWhile _ _
        have heq : (cs.takeWhile (·.isDigit) ++ ['$', '@']) ++
            (cs.dropWhile (·.isDigit)).drop 2 = cs := by
          rw [List.append_assoc]
          rw [show ['$', '@'] ++ (cs.dropWhile (·.isDigit)).drop 2 =
            '$' :: '@' :: (cs.dropWhile (·.isDigit)).drop 2 from rfl]
          rw [← hdw]
          exact hsplit
        have hpre : ('%' :: (cs.takeWhile (·.isDigit) ++ ['$', '@'])) <+: (c :: cs) := by
          rw [hc]
          exact List.cons_prefix_cons.mpr ⟨rfl, ⟨_, heq⟩⟩
        exact hnp (cs.takeWhile (·.isDigit)) hds hdig (c :: cs) (List.suffix_refl _) hpre
      · rw [if_neg hcond]
        rw [ih cs (NoPos_of_suffix (List.suffix_cons c cs) hnp)
          (Nat.le_of_succ_le_succ hlen)]

theorem NoPos_subSpecGo :
    ∀ fuel s, s.length ≤ fuel → NoPos (subSpecGo '@' (L "s") fuel s) := by
  intro fuel
  induction fuel with
  | zero =>
    intro s hlen
    have hs : s = [] := List.length_eq_zero.mp (Nat.le_zero.mp hlen)
    subst hs
    exact NoPos_nil
  | succ n ih =>
    intro s hlen
    match s with
    | [] =>
      rw [subSpecGo_nil]
      exact NoPos_nil
    | c :: cs =>
      rw [subSpecGo_cons]
      by_cases hcond : c = '%' ∧ cs.takeWhile (·.isDigit) ≠ [] ∧
          (cs.dropWhile (·.isDigit)).take 2 = ['$', '@']
      · rw [if_pos hcond]
        obtain ⟨hc, hds, htake⟩ := hcond
        have hdig : ∀ x ∈ cs.takeWhile (·.isDigit), x.isDigit = true :=
          fun x hx => List.mem_takeWhile_imp hx
        have hX := ih ((cs.dropWhile (·.isDigit)).drop 2) (drop_two_sub_len hlen)
        rw [subSpec_out_shape]
        intro ds' h1 h2
        rw [noOcc_cons]
        constructor
        · intro hp
          rcases List.cons_prefix_cons.mp hp with ⟨_, hp2⟩
          rw [append_two_shape] at hp2
          exact digits_dollar_distinct hdig h2 hp2
        · refine noOcc_append_left rfl ?_ (hX ds' h1 h2)
          intro x hx hxp
          subst hxp
          rcases List.mem_append.mp hx with hx1 | hx2
          · exact absurd (List.mem_takeWhile_imp hx1) (by decide)
          · exact absurd hx2 (by decide)
      · rw [if_neg hcond]
        intro ds' h1 h2
        rw [noOcc_cons]
        refine ⟨?_, ih cs (Nat.le_of_succ_le_succ hlen) ds' h1 h2⟩
        intro hp
        rcases List.cons_prefix_cons.mp hp with ⟨h1c, hp2⟩
        have hfree : '%' ∉ ds' ++ ['$', '@'] := by
          intro hm
          rcases List.mem_append.mp hm with hm1 | hm2
          · exact isDigit_ne_percent (h2 _ hm1) rfl
          · exact absurd hm2 (by decide)
        have hp3 : (ds' ++ ['$', '@']) <+: cs :=
          prefix_of_subSpecGo n cs _ hfree hp2 (Nat.le_of_succ_le_succ hlen)
        obtain ⟨w, hw⟩ := hp3
        have hcs : cs = ds' ++ '$' :: '@' :: w := by
          rw [← hw, List.append_assoc]
          rfl
        have htw := takeWhile_digits (u := '@' :: w) h2
        apply hcond
        refine ⟨h1c.symm, ?_, ?_⟩
        · rw [hcs, htw.1]
          exact h1
        · rw [hcs, htw.2]
          rfl

theorem noOcc_subSpecGo_of_noOcc {q1 : Char} {qt : Str}
    (hqm : '%' ∉ q1 :: qt) (hq1 : q1.isDigit = false) :
    ∀ fuel s, noOcc ('%' :: q1 :: qt) s → s.length ≤ fuel →
      noOcc ('%' :: q1 :: qt) (subSpecGo '@' (L "s") fuel s) := by
  intro fuel
  induction fuel with
  | zero =>
    intro s h hlen
    have hs : s = [] := List.length_eq_zero.mp (Nat.le_zero.mp hlen)
    subst hs
    exact noOcc_nil (by simp)
  | succ n ih =>
    intro s h hlen
    match s with
    | [] =>
      rw [subSpecGo_nil]
      exact noOcc_nil (by simp)
    | c :: cs =>
      rw [subSpecGo_cons]
      by_cases hcond : c = '%' ∧ cs.takeWhile (·.isDigit) ≠ [] ∧
          (cs.dropWhile (·.isDigit)).take 2 = ['$', '@']
      · rw [if_pos hcond]
        obtain ⟨hc, hds, htake⟩ := hcond
        have hsub : ((cs.dropWhile (·.isDigit)).drop 2) <:+ (c :: cs) :=
          ((List.drop_suffix _ _).trans (List.dropWhile_suffix _)).trans
            (List.suffix_cons c cs)
        have hX := ih ((cs.dropWhile (·.isDigit)).drop 2)
          (noOcc_of_suffix hsub h) (drop_two_sub_len hlen)
        rw [subSpec_out_shape, noOcc_cons]
        constructor
        · intro hp
          rcases List.cons_prefix_cons.mp hp with ⟨_, hp2⟩
          match hcw : cs.takeWhile (·.isDigit) with
          | [] => exact hds hcw
          | d :: tW =>
            rw [hcw] at hp2
            rw [show ((d :: tW) ++ ['$', 's']) ++
              subSpecGo '@' (L "s") n ((cs.dropWhile (·.isDigit)).drop 2) =
              d :: ((tW ++ ['$', 's']) ++
                subSpecGo '@' (L "s") n ((cs.dropWhile (·.isDigit)).drop 2)) from rfl] at hp2
            rcases List.cons_prefix_cons.mp hp2 with ⟨hq1d, _⟩
            have hdd : d.isDigit = true :=
              List.mem_takeWhile_imp (hcw ▸ List.mem_cons_self d tW)
            rw [← hq1d] at hdd
            rw [hdd] at hq1
            exact Bool.noConfusion hq1
        · refine noOcc_append_left rfl ?_ hX
          intro x hx hxp
          subst hxp
          rcases List.mem_append.mp hx with hx1 | hx2
          · exact absurd (List.mem_takeWhile_imp hx1) (by decide)
          · exact absurd hx2 (by decide)
      · rw [if_neg hcond]
        rw [noOcc_cons]
        refine ⟨?_, ih cs (noOcc_of_suffix (List.suffix_cons c cs) h)
          (Nat.le_of_succ_le_succ hlen)⟩
        intro hp
        rcases List.cons_prefix_cons.mp hp with ⟨h1c, hp2⟩
        have hp3 : (q1 :: qt) <+: cs :=
          prefix_of_subSpecGo n cs _ hqm hp2 (Nat.le_of_succ_le_succ hlen)
        exact h (c :: cs) (List.suffix_refl _)
          (h1c ▸ List.cons_prefix_cons.mpr ⟨rfl, hp3⟩)

/-! ### Wrappers at the `strReplace` / `subSpec` level -/

theorem strReplace_self_noOcc (p1 r1 : Char) (pt rt : Str) (hpm : '%' ∉ p1 :: pt)
    (hrm : '%' ∉ r1 :: rt) (hne : p1 ≠ r1) (s : Str) :
    noOcc ('%' :: p1 :: pt) (strReplace s ('%' :: p1 :: pt) ('%' :: r1 :: rt)) :=
  noOcc_self_strReplaceGo hpm hrm hne s.length s (Nat.le_refl _)

theorem strReplace_pres_noOcc (p : Str) (q1 r1 : Char) (qt rt : Str) (hp : p ≠ [])
    (hqm : '%' ∉ q1 :: qt) (hrm : '%' ∉ r1 :: rt) (hne : q1 ≠ r1) {s : Str}
    (h : noOcc ('%' :: q1 :: qt) s) :
    noOcc ('%' :: q1 :: qt) (strReplace s p ('%' :: r1 :: rt)) :=
  noOcc_strReplaceGo_of_noOcc hp hqm hrm hne s.length s h (Nat.le_refl _)

theorem strReplace_pres_NoPos (p : Str) (r1 : Char) (rt : Str) (hp : p ≠ [])
    (hrm : '%' ∉ r1 :: rt) (hr1d : r1.isDigit = false) {s : Str} (h : NoPos s) :
    NoPos (strReplace s p ('%' :: r1 :: rt)) := by
  intro ds h1 h2
  cases ds with
  | nil => exact absurd rfl h1
  | cons d ds2 =>
    have hq : ('%' :: ((d :: ds2) ++ ['$', '@'])) = '%' :: d :: (ds2 ++ ['$', '@']) := rfl
    rw [hq]
    have hqm : '%' ∉ d :: (ds2 ++ ['$', '@']) := by
      intro hm
      rcases List.mem_cons.mp hm with hm1 | hm2
      · exact isDigit_ne_percent (h2 d (List.mem_cons_self _ _)) hm1.symm
      · rcases List.mem_append.mp hm2 with hm3 | hm4
        · exact isDigit_ne_percent (h2 _ (List.mem_cons_of_mem _ hm3)) rfl
        · exact absurd hm4 (by decide)
    have hne : d ≠ r1 := by
      intro he
      have hdd := h2 d (List.mem_cons_self _ _)
      rw [he, hr1d] at hdd
      exact Bool.noConfusion hdd
    have hno : noOcc ('%' :: d :: (ds2 ++ ['$', '@'])) s := by
      have hh := h (d :: ds2) (by simp) h2
      rw [hq] at hh
      exact hh
    exact noOcc_strReplaceGo_of_noOcc hp hqm hrm hne s.length s hno (Nat.le_refl _)

theorem subSpec_pres_noOcc (q1 : Char) (qt : Str) (hqm : '%' ∉ q1 :: qt)
    (hq1 : q1.isDigit = false) {s : Str} (h : noOcc ('%' :: q1 :: qt) s) :
    noOcc ('%' :: q1 :: qt) (subSpec '@' (L "s") s) :=
  noOcc_subSpecGo_of_noOcc hqm hq1 s.length s h (Nat.le_refl _)

theorem NoPos_subSpec (s : Str) : NoPos (subSpec '@' (L "s") s) :=
  NoPos_subSpecGo s.length s (Nat.le_refl _)

theorem subSpec_eq_self {s : Str} (h : NoPos s) : subSpec '@' (L "s") s = s :=
  subSpecGo_eq_self s.length s h (Nat.le_refl _)

/-! ### `convert_ios_format_to_android`: clean output and idempotence -/

theorem clean_nil : cleanStr [] := by
  refine ⟨NoPos_nil, ?_, ?_, ?_, ?_, ?_, ?_⟩ <;> exact noOcc_nil (by decide)

theorem convert_clean (s : Str) : cleanStr (convert_ios_format_to_android s) := by
  by_cases hs : s = []
  · subst hs
    exact clean_nil
  · unfold convert_ios_format_to_android
    rw [if_neg hs]
    show cleanStr (strReplace (strReplace (strReplace (strReplace (strReplace
      (strReplace (subSpec '@' (L "s") s) (L "%@") (L "%s")) (L "%lld") (L "%d"))
      (L "%ld") (L "%d")) (L "%llu") (L "%d")) (L "%lu") (L "%d")) (L "%li") (L "%d"))
    set x1 := subSpec '@' (L "s") s with hx1
    set x2 := strReplace x1 (L "%@") (L "%s") with hx2
    set x3 := strReplace x2 (L "%lld") (L "%d") with hx3
    set x4 := strReplace x3 (L "%ld") (L "%d") with hx4
    set x5 := strReplace x4 (L "%llu") (L "%d") with hx5
    set x6 := strReplace x5 (L "%lu") (L "%d") with hx6
    set x7 := strReplace x6 (L "%li") (L "%d") with hx7
    have hp1 : NoPos x1 := NoPos_subSpec s
    have hp2 : NoPos x2 := strReplace_pres_NoPos (L "%@") 's' [] (by decide) (by decide) (by decide) hp1
    have hp3 : NoPos x3 := strReplace_pres_NoPos (L "%lld") 'd' [] (by decide) (by decide) (by decide) hp2
    have hp4 : NoPos x4 := strReplace_pres_NoPos (L "%ld") 'd' [] (by decide) (by decide) (by decide) hp3
    have hp5 : NoPos x5 := strReplace_pres_NoPos (L "%llu") 'd' [] (by decide) (by decide) (by decide) hp4
    have hp6 : NoPos x6 := strReplace_pres_NoPos (L "%lu") 'd' [] (by decide) (by decide) (by decide) hp5
    have hp7 : NoPos x7 := strReplace_pres_NoPos (L "%li") 'd' [] (by decide) (by decide) (by decide) hp6
    have ha2 : noOcc (L "%@") x2 := strReplace_self_noOcc '@' 's' [] [] (by decide) (by decide) (by decide) x1
    have ha3 : noOcc (L "%@") x3 := strReplace_pres_noOcc (L "%lld") '@' 'd' [] [] (by decide) (by decide) (by decide) (by decide) ha2
    have ha4 : noOcc (L "%@") x4 := strReplace_pres_noOcc (L "%ld") '@' 'd' [] [] (by decide) (by decide) (by decide) (by decide) ha3
    have ha5 : noOcc (L "%@") x5 := strReplace_pres_noOcc (L "%llu") '@' 'd' [] [] (by decide) (by decide) (by decide) (by decide) ha4
    have ha6 : noOcc (L "%@") x6 := strReplace_pres_noOcc (L "%lu") '@' 'd' [] [] (by decide) (by decide) (by decide) (by decide) ha5
    have ha7 : noOcc (L "%@") x7 := strReplace_pres_noOcc (L "%li") '@' 'd' [] [] (by decide) (by decide) (by decide) (by decide) ha6
    have hb3 : noOcc (L "%lld") x3 := strReplace_self_noOcc 'l' 'd' ['l', 'd'] [] (by decide) (by decide) (by decide) x2
    have hb4 : noOcc (L "%lld") x4 := strReplace_pres_noOcc (L "%ld") 'l' 'd' ['l', 'd'] [] (by decide) (by decide) (by decide) (by decide) hb3
    have hb5 : noOcc (L "%lld") x5 := strReplace_pres_noOcc (L "%llu") 'l' 'd' ['l', 'd'] [] (by decide) (by decide) (by decide) (by decide) hb4
    have hb6 : noOcc (L "%lld") x6 := strReplace_pres_noOcc (L "%lu") 'l' 'd' ['l', 'd'] [] (by decide) (by decide) (by decide) (by decide) hb5
    have hb7 : noOcc (L "%lld") x7 := strReplace_pres_noOcc (L "%li") 'l' 'd' ['l', 'd'] [] (by decide) (by decide) (by decide) (by decide) hb6
    have hc4 : noOcc (L "%ld") x4 := strReplace_self_noOcc 'l' 'd' ['d'] [] (by decide) (by decide) (by decide) x3
    have hc5 : noOcc (L "%ld") x5 := strReplace_pres_noOcc (L "%llu") 'l' 'd' ['d'] [] (by decide) (by decide) (by decide) (by decide) hc4
    have hc6 : noOcc (L "%ld") x6 := strReplace_pres_noOcc (L "%lu") 'l' 'd' ['d'] [] (by decide) (by decide) (by decide) (by decide) hc5
    have hc7 : noOcc (L "%ld") x7 := strReplace_pres_noOcc (L "%li") 'l' 'd' ['d'] [] (by decide) (by decide) (by decide) (by decide) hc6
    have hd5 : noOcc (L "%llu") x5 := strReplace_self_noOcc 'l' 'd' ['l', 'u'] [] (by decide) (by decide) (by decide) x4
    have hd6 : noOcc (L "%llu") x6 := strReplace_pres_noOcc (L "%lu") 'l' 'd' ['l', 'u'] [] (by decide) (by decide) (by decide) (by decide) hd5
    have hd7 : noOcc (L "%llu") x7 := strReplace_pres_noOcc (L "%li") 'l' 'd' ['l', 'u'] [] (by decide) (by decide) (by decide) (by decide) hd6
    have he6 : noOcc (L "%lu") x6 := strReplace_self_noOcc 'l' 'd' ['u'] [] (by decide) (by decide) (by decide) x5
    have he7 : noOcc (L "%lu") x7 := strReplace_pres_noOcc (L "%li") 'l' 'd' ['u'] [] (by decide) (by decide) (by decide) (by decide) he6
    have hf7 : noOcc (L "%li") x7 := strReplace_self_noOcc 'l' 'd' ['i'] [] (by decide) (by decide) (by decide) x6
    exact ⟨hp7, ha7, hb7, hc7, hd7, he7, hf7⟩

theorem convert_id_of_clean {s : Str} (h : cleanStr s) :
    convert_ios_format_to_android s = s := by
  by_cases hs : s = []
  · subst hs
    rfl
  · unfold convert_ios_format_to_android
    rw [if_neg hs]
    show strReplace (strReplace (strReplace (strReplace (strReplace
      (strReplace (subSpec '@' (L "s") s) (L "%@") (L "%s")) (L "%lld") (L "%d"))
      (L "%ld") (L "%d")) (L "%llu") (L "%d")) (L "%lu") (L "%d")) (L "%li") (L "%d") = s
    obtain ⟨h0, h1, h2, h3, h4, h5, h6⟩ := h
    rw [subSpec_eq_self h0, strReplace_eq_self h1, strReplace_eq_self h2,
      strReplace_eq_self h3, strReplace_eq_self h4, strReplace_eq_self h5,
      strReplace_eq_self h6]

theorem subSpec_positional (ds : Str) (h1 : ds ≠ []) (h2 : ∀ c ∈ ds, c.isDigit = true) :
    subSpec '@' (L "s") ('%' :: (ds ++ ['$', '@'])) = '%' :: (ds ++ ['$', 's']) := by
  have htw := takeWhile_digits (u := ['@']) h2
  show subSpecGo '@' (L "s") ('%' :: (ds ++ ['$', '@'])).length ('%' :: (ds ++ ['$', '@'])) = _
  rw [show ('%' :: (ds ++ ['$', '@'])).length = (ds ++ ['$', '@']).length + 1 from rfl]
  rw [subSpecGo_cons]
  have hcond : ('%' : Char) = '%' ∧ (ds ++ ['$', '@']).takeWhile (·.isDigit) ≠ [] ∧
      ((ds ++ ['$', '@']).dropWhile (·.isDigit)).take 2 = ['$', '@'] := by
    refine ⟨rfl, ?_, ?_⟩
    · rw [htw.1]
      exact h1
    · rw [htw.2]
      rfl
  rw [if_pos hcond]
  rw [subSpec_out_shape]
  rw [htw.1, htw.2]
  rw [show (['$', '@'] : Str).drop 2 = [] from rfl]
  rw [subSpecGo_nil]
  rw [List.append_nil]

theorem noOcc_posres (p1 : Char) (pt ds : Str) (hp1 : p1.isDigit = false)
    (hp1d : p1 ≠ '$') (hds : ∀ c ∈ ds, c.isDigit = true) :
    noOcc ('%' :: p1 :: pt) ('%' :: (ds ++ ['$', 's'])) := by
  rw [noOcc_cons]
  constructor
  · intro hp
    rcases List.cons_prefix_cons.mp hp with ⟨_, hp2⟩
    cases ds with
    | nil =>
      rcases List.cons_prefix_cons.mp hp2 with ⟨he, _⟩
      exact hp1d he
    | cons d ds2 =>
      rw [List.cons_append] at hp2
      rcases List.cons_prefix_cons.mp hp2 with ⟨he, _⟩
      have hdd := hds d (List.mem_cons_self _ _)
      rw [← he, hp1] at hdd
      exact Bool.noConfusion hdd
  · refine noOcc_append_left rfl
      (fun c hc hcp => isDigit_ne_percent (hds c hc) hcp) ?_
    rw [noOcc_cons]
    constructor
    · intro hp
      rcases List.cons_prefix_cons.mp hp with ⟨he, _⟩
      exact absurd he (by decide)
    · rw [noOcc_cons]
      constructor
      · intro hp
        rcases List.cons_prefix_cons.mp hp with ⟨he, _⟩
        exact absurd he (by decide)
      · exact noOcc_nil (by simp)

theorem convert_positional (ds : Str) (h1 : ds ≠ []) (h2 : ∀ c ∈ ds, c.isDigit = true) :
    convert_ios_format_to_android ('%' :: (ds ++ ['$', '@'])) =
      '%' :: (ds ++ ['$', 's']) := by
  unfold convert_ios_format_to_android
  rw [if_neg (by simp)]
  show strReplace (strReplace (strReplace (strReplace (strReplace
    (strReplace (subSpec '@' (L "s") ('%' :: (ds ++ ['$', '@']))) (L "%@") (L "%s"))
    (L "%lld") (L "%d")) (L "%ld") (L "%d")) (L "%llu") (L "%d")) (L "%lu") (L "%d"))
    (L "%li") (L "%d") = '%' :: (ds ++ ['$', 's'])
  rw [subSpec_positional ds h1 h2]
  have k1 : noOcc (L "%@") ('%' :: (ds ++ ['$', 's'])) :=
    noOcc_posres '@' [] ds (by decide) (by decide) h2
  have k2 : noOcc (L "%lld") ('%' :: (ds ++ ['$', 's'])) :=
    noOcc_posres 'l' ['l', 'd'] ds (by decide) (by decide) h2
  have k3 : noOcc (L "%ld") ('%' :: (ds ++ ['$', 's'])) :=
    noOcc_posres 'l' ['d'] ds (by decide) (by decide) h2
  have k4 : noOcc (L "%llu") ('%' :: (ds ++ ['$', 's'])) :=
    noOcc_posres 'l' ['l', 'u'] ds (by decide) (by decide) h2
  have k5 : noOcc (L "%lu") ('%' :: (ds ++ ['$', 's'])) :=
    noOcc_posres 'l' ['u'] ds (by decide) (by decide) h2
  have k6 : noOcc (L "%li") ('%' :: (ds ++ ['$', 's'])) :=
    noOcc_posres 'l' ['i'] ds (by decide) (by decide) h2
  rw [strReplace_eq_self k1, strReplace_eq_self k2, strReplace_eq_self k3,
    strReplace_eq_self k4, strReplace_eq_self k5, strReplace_eq_self k6]

/-! ### `unescape_android_xml` as the identity on escape-free text -/

theorem prefix_of_take_two {s : Str} {a b : Char} (h : s.take 2 = [a, b]) :
    [a, b] <+: s :=
  ⟨s.drop 2, (take_two_shape h).symm⟩

theorem unescape_eq_self {s : Str}
    (h1 : noOcc ['\\', apos] s) (h2 : noOcc ['\\', '\"'] s)
    (h3 : noOcc (L "&amp;") s) (h4 : noOcc (L "&lt;") s) (h5 : noOcc (L "&gt;") s)
    (h6 : ¬ (['\\', '@'] <+: s)) :
    unescape_android_xml s = s := by
  simp only [unescape_android_xml]
  rw [strReplace_eq_self h1, strReplace_eq_self h2, strReplace_eq_self h3,
    strReplace_eq_self h4, strReplace_eq_self h5]
  rw [if_neg fun he => h6 (prefix_of_take_two he)]

/-! ### `escape_android_xml` as a character expansion -/

theorem strReplaceGo_singleton (a : Char) (r : Str) :
    ∀ fuel s, s.length ≤ fuel →
      strReplaceGo [a] r fuel s = charExpand (fun c => if c = a then r else [c]) s := by
  intro fuel
  induction fuel with
  | zero =>
    intro s hlen
    have hs : s = [] := List.length_eq_zero.mp (Nat.le_zero.mp hlen)
    subst hs
    rfl
  | succ n ih =>
    intro s hlen
    match s with
    | [] => rfl
    | c :: cs =>
      by_cases hc : c = a
      · subst hc
        have hpre : [c] <+: (c :: cs) := ⟨cs, rfl⟩
        rw [show strReplaceGo [c] r (n+1) (c :: cs) =
          if [c] <+: (c :: cs) then r ++ strReplaceGo [c] r n ((c :: cs).drop 1)
          else c :: strReplaceGo [c] r n cs from rfl, if_pos hpre]
        show r ++ strReplaceGo [c] r n cs = _
        rw [ih cs (Nat.le_of_succ_le_succ hlen)]
        show _ = (if c = c then r else [c]) ++ charExpand _ cs
        rw [if_pos rfl]
      · have hpre : ¬ [a] <+: (c :: cs) := by
          rintro ⟨t, ht⟩
          have : a = c := by
            injection (show a :: t = c :: cs from ht) with hh _
          exact hc this.symm
        rw [show strReplaceGo [a] r (n+1) (c :: cs) =
          if [a] <+: (c :: cs) then r ++ strReplaceGo [a] r n ((c :: cs).drop 1)
          else c :: strReplaceGo [a] r n cs from rfl, if_neg hpre]
        rw [ih cs (Nat.le_of_succ_le_succ hlen)]
        show _ = (if c = a then r else [c]) ++ charExpand _ cs
        rw [if_neg hc]
        rfl

theorem strReplace_singleton (a : Char) (r : Str) (s : Str) :
    strReplace s [a] r = charExpand (fun c => if c = a then r else [c]) s :=
  strReplaceGo_singleton a r s.length s (Nat.le_refl _)

theorem not_mem_charExpand {f : Char → Str} {x : Char} {s : Str}
    (h : ∀ c ∈ s, x ∉ f c) : x ∉ charExpand f s := by
  induction s with
  | nil => simp [charExpand]
  | cons c cs ih =>
    show x ∉ f c ++ charExpand f cs
    rw [List.mem_append]
    rintro (hx | hx)
    · exact h c (List.mem_cons_self _ _) hx
    · exact ih (fun d hd => h d (List.mem_cons_of_mem _ hd)) hx

theorem not_mem_charExpand_pres {f : Char → Str} {x : Char} {s : Str}
    (hf : ∀ c, f c = [c] ∨ x ∉ f c) (hx : x ∉ s) : x ∉ charExpand f s := by
  refine not_mem_charExpand fun c hc hmem => ?_
  rcases hf c with h | h
  · rw [h] at hmem
    have : x = c := by simpa using hmem
    exact hx (this ▸ hc)
  · exact h hmem

theorem charExpand_id_append {f : Char → Str} {t u : Str}
    (h : ∀ c ∈ t, f c = [c]) : charExpand f (t ++ u) = t ++ charExpand f u := by
  induction t with
  | nil => rfl
  | cons c t' ih =>
    show f c ++ charExpand f (t' ++ u) = c :: (t' ++ charExpand f u)
    rw [h c (List.mem_cons_self _ _), ih (fun d hd => h d (List.mem_cons_of_mem _ hd))]
    rfl

theorem AmpOk_nil : AmpOk [] := by
  intro t ht hh
  rw [List.suffix_nil] at ht
  subst ht
  simp at hh

theorem AmpOk_cons {c : Char} {X : Str} :
    AmpOk (c :: X) ↔ ((c :: X).head? = some '&' → patOk (c :: X)) ∧ AmpOk X := by
  constructor
  · intro h
    exact ⟨h _ (List.suffix_refl _),
      fun t ht hh => h t (ht.trans (List.suffix_cons _ _)) hh⟩
  · rintro ⟨h1, h2⟩ t ht hh
    rcases List.suffix_cons_iff.mp ht with h | h
    · subst h
      exact h1 hh
    · exact h2 t h hh

theorem AmpOk_cons_ne {c : Char} {X : Str} (hc : c ≠ '&') (h : AmpOk X) :
    AmpOk (c :: X) := by
  rw [AmpOk_cons]
  refine ⟨?_, h⟩
  intro hh
  rw [show (c :: X).head? = some c from rfl] at hh
  exact absurd (Option.some.inj hh) hc

theorem AmpOk_escF1 (s : Str) : AmpOk (charExpand escF1 s) := by
  induction s with
  | nil => exact AmpOk_nil
  | cons c cs ih =>
    by_cases hc : c = '&'
    · subst hc
      show AmpOk ('&' :: 'a' :: 'm' :: 'p' :: ';' :: charExpand escF1 cs)
      rw [AmpOk_cons]
      refine ⟨fun _ => Or.inl ⟨charExpand escF1 cs, rfl⟩, ?_⟩
      exact AmpOk_cons_ne (by decide) (AmpOk_cons_ne (by decide)
        (AmpOk_cons_ne (by decide) (AmpOk_cons_ne (by decide) ih)))
    · show AmpOk (escF1 c ++ charExpand escF1 cs)
      rw [show escF1 c = [c] from by simp [escF1, hc]]
      exact AmpOk_cons_ne hc ih

theorem patOk_expand {f : Char → Str} (hid : ∀ c ∈ L "&amp;lt;g", f c = [c])
    {cs : Str} (hp : patOk ('&' :: cs)) : patOk ('&' :: charExpand f cs) := by
  have himp1 : ∀ d ∈ L "amp;", d ∈ L "&amp;lt;g" := by decide
  have himp2 : ∀ d ∈ L "lt;", d ∈ L "&amp;lt;g" := by decide
  have himp3 : ∀ d ∈ L "gt;", d ∈ L "&amp;lt;g" := by decide
  rcases hp with hp | hp | hp
  · obtain ⟨u, hu⟩ := hp
    have hcs2 : cs = L "amp;" ++ u := by
      injection (show ('&' :: (L "amp;" ++ u)) = '&' :: cs from hu) with _ hr
      exact hr.symm
    left
    rw [hcs2, charExpand_id_append (fun d hd => hid d (himp1 d hd))]
    exact ⟨charExpand f u, rfl⟩
  · obtain ⟨u, hu⟩ := hp
    have hcs2 : cs = L "lt;" ++ u := by
      injection (show ('&' :: (L "lt;" ++ u)) = '&' :: cs from hu) with _ hr
      exact hr.symm
    right
    left
    rw [hcs2, charExpand_id_append (fun d hd => hid d (himp2 d hd))]
    exact ⟨charExpand f u, rfl⟩
  · obtain ⟨u, hu⟩ := hp
    have hcs2 : cs = L "gt;" ++ u := by
      injection (show ('&' :: (L "gt;" ++ u)) = '&' :: cs from hu) with _ hr
      exact hr.symm
    right
    right
    rw [hcs2, charExpand_id_append (fun d hd => hid d (himp3 d hd))]
    exact ⟨charExpand f u, rfl⟩

theorem AmpOk_charExpand {f : Char → Str}
    (hid : ∀ c ∈ L "&amp;lt;g", f c = [c])
    (hb : ∀ c, f c = [c] ∨ f c = L "&lt;" ∨ f c = L "&gt;" ∨ f c = ['\\', apos] ∨
      f c = ['\\', '\"'])
    {s : Str} (h : AmpOk s) : AmpOk (charExpand f s) := by
  induction s with
  | nil => exact AmpOk_nil
  | cons c cs ih =>
    have ihe := ih (AmpOk_cons.mp h).2
    show AmpOk (f c ++ charExpand f cs)
    rcases hb c with hfc | hfc | hfc | hfc | hfc
    · rw [hfc]
      show AmpOk (c :: charExpand f cs)
      by_cases hc : c = '&'
      · subst hc
        rw [AmpOk_cons]
        refine ⟨fun _ => ?_, ihe⟩
        exact patOk_expand hid ((AmpOk_cons.mp h).1 rfl)
      · exact AmpOk_cons_ne hc ihe
    · rw [hfc]
      show AmpOk ('&' :: 'l' :: 't' :: ';' :: charExpand f cs)
      rw [AmpOk_cons]
      refine ⟨fun _ => Or.inr (Or.inl ⟨charExpand f cs, rfl⟩), ?_⟩
      exact AmpOk_cons_ne (by decide) (AmpOk_cons_ne (by decide)
        (AmpOk_cons_ne (by decide) ihe))
    · rw [hfc]
      show AmpOk ('&' :: 'g' :: 't' :: ';' :: charExpand f cs)
      rw [AmpOk_cons]
      refine ⟨fun _ => Or.inr (Or.inr ⟨charExpand f cs, rfl⟩), ?_⟩
      exact AmpOk_cons_ne (by decide) (AmpOk_cons_ne (by decide)
        (AmpOk_cons_ne (by decide) ihe))
    · rw [hfc]
      show AmpOk ('\\' :: apos :: charExpand f cs)
      exact AmpOk_cons_ne (by decide) (AmpOk_cons_ne (by decide) ihe)
    · rw [hfc]
      show AmpOk ('\\' :: '\"' :: charExpand f cs)
      exact AmpOk_cons_ne (by decide) (AmpOk_cons_ne (by decide) ihe)

theorem escape_eq_expand {s : Str} (hs : s ≠ []) :
    escape_android_xml s =
      if (charExpand escF5 (charExpand escF4 (charExpand escF3 (charExpand escF2
          (charExpand escF1 s))))).take 1 = ['@'] then
        '\\' :: charExpand escF5 (charExpand escF4 (charExpand escF3 (charExpand escF2
          (charExpand escF1 s))))
      else charExpand escF5 (charExpand escF4 (charExpand escF3 (charExpand escF2
        (charExpand escF1 s)))) := by
  simp only [escape_android_xml]
  rw [if_neg hs]
  rw [show (L "&") = ['&'] from rfl, show (L "<") = ['<'] from rfl,
    show (L ">") = ['>'] from rfl]
  rw [strReplace_singleton, strReplace_singleton, strReplace_singleton,
    strReplace_singleton, strReplace_singleton]
  rfl

theorem escF2_id_or_lt_free (c : Char) : escF2 c = [c] ∨ '<' ∉ escF2 c := by
  by_cases hc : c = '<'
  · subst hc
    right
    decide
  · left
    simp [escF2, hc]

theorem escF3_id_or_lt_free (c : Char) : escF3 c = [c] ∨ '<' ∉ escF3 c := by
  by_cases hc : c = '>'
  · subst hc
    right
    decide
  · left
    simp [escF3, hc]

theorem escF4_id_or_free (c : Char) (x : Char) (hx : x ≠ '\\' ∧ x ≠ apos) :
    escF4 c = [c] ∨ x ∉ escF4 c := by
  by_cases hc : c = apos
  · subst hc
    right
    intro hm
    rcases List.mem_cons.mp hm with h | h
    · exact hx.1 h
    · rcases List.mem_cons.mp h with h2 | h2
      · exact hx.2 h2
      · simp at h2
  · left
    simp [escF4, hc]

theorem escF5_id_or_free (c : Char) (x : Char) (hx : x ≠ '\\' ∧ x ≠ '\"') :
    escF5 c = [c] ∨ x ∉ escF5 c := by
  by_cases hc : c = '\"'
  · subst hc
    right
    intro hm
    rcases List.mem_cons.mp hm with h | h
    · exact hx.1 h
    · rcases List.mem_cons.mp h with h2 | h2
      · exact hx.2 h2
      · simp at h2
  · left
    simp [escF5, hc]

theorem lt_not_mem_escF2 (s : Str) : '<' ∉ charExpand escF2 s := by
  refine not_mem_charExpand fun c _ hm => ?_
  by_cases hc : c = '<'
  · subst hc
    rw [show escF2 '<' = L "&lt;" from rfl] at hm
    exact absurd hm (by decide)
  · rw [show escF2 c = [c] from by simp [escF2, hc]] at hm
    exact hc (List.mem_singleton.mp hm).symm

theorem gt_not_mem_escF3 (s : Str) : '>' ∉ charExpand escF3 s := by
  refine not_mem_charExpand fun c _ hm => ?_
  by_cases hc : c = '>'
  · subst hc
    rw [show escF3 '>' = L "&gt;" from rfl] at hm
    exact absurd hm (by decide)
  · rw [show escF3 c = [c] from by simp [escF3, hc]] at hm
    exact hc (List.mem_singleton.mp hm).symm

/-! ### Matcher and generator lemmas -/

theorem matchTranslation_eq_or (ios_strings : List (Str × IosEntry))
    (target_lang english_value : Str) :
    matchTranslation ios_strings target_lang english_value =
      ((exactMatchSpec ios_strings target_lang (unescape_android_xml english_value)).or
        ((normalizedMatchSpec ios_strings target_lang
            (unescape_android_xml english_value)).or
          (genericMatchSpec ios_strings target_lang
            (unescape_android_xml english_value)))) := by
  simp only [matchTranslation, exactMatchSpec, normalizedMatchSpec, genericMatchSpec]
  cases h1 : dictLookup (unescape_android_xml english_value) ios_strings with
  | none =>
    simp only [Option.none_bind, Option.none_or]
    cases h2 : firstMatch (fun kv =>
        if normalize_for_matching kv.1 =
            normalize_for_matching (unescape_android_xml english_value) then
          getTranslation kv.2 target_lang
        else none) ios_strings with
    | none =>
      simp only [Option.none_or]
      cases h3 : dictLookup (genericize (unescape_android_xml english_value))
          ios_strings with
      | none => rfl
      | some e => rfl
    | some t => rfl
  | some e =>
    simp only [Option.some_bind]
    cases h2 : getTranslation e target_lang with
    | none =>
      simp only [Option.none_or]
      cases h3 : firstMatch (fun kv =>
          if normalize_for_matching kv.1 =
              normalize_for_matching (unescape_android_xml english_value) then
            getTranslation kv.2 target_lang
          else none) ios_strings with
      | none =>
        simp only [Option.none_or]
        cases h4 : dictLookup (genericize (unescape_android_xml english_value))
            ios_strings with
        | none => rfl
        | some e2 => rfl
      | some t => rfl
    | some t => rfl

theorem getTranslation_ne_nil {e : IosEntry} {lang v : Str}
    (h : getTranslation e lang = some v) : v ≠ [] := by
  cases h1 : dictLookup lang e.localizations with
  | none => simp [getTranslation, h1] at h
  | some loc =>
    cases h2 : loc.stringUnit with
    | none => simp [getTranslation, h1, h2] at h
    | some su =>
      cases h3 : su.value with
      | none => simp [getTranslation, h1, h2, h3] at h
      | some w =>
        by_cases hw : w = []
        · simp [getTranslation, h1, h2, h3, hw] at h
        · simp only [getTranslation, h1, h2, h3, if_neg hw] at h
          exact (Option.some.inj h) ▸ hw

theorem genLoop_translations (ios_strings : List (Str × IosEntry)) (target_lang : Str) :
    ∀ l : List (Str × Str), (genLoop ios_strings target_lang l).1 =
      l.filterMap fun kv =>
        if kv.1 = L "app_name" then none
        else (matchTranslation ios_strings target_lang kv.2).map
          fun t => (kv.1, convert_ios_format_to_android t) := by
  intro l
  induction l with
  | nil => rfl
  | cons kv rest ih =>
    obtain ⟨name, value⟩ := kv
    by_cases hn : name = L "app_name"
    · simp [genLoop, hn, ih]
    · cases hm : matchTranslation ios_strings target_lang value with
      | some t => simp [genLoop, hn, hm, ih]
      | none => simp [genLoop, hn, hm, ih]

theorem genLoop_unmatched (ios_strings : List (Str × IosEntry)) (target_lang : Str) :
    ∀ l : List (Str × Str), (genLoop ios_strings target_lang l).2.2 =
      l.filterMap fun kv =>
        if kv.1 = L "app_name" then none
        else
          match matchTranslation ios_strings target_lang kv.2 with
          | some _ => none
          | none => some kv.1 := by
  intro l
  induction l with
  | nil => rfl
  | cons kv rest ih =>
    obtain ⟨name, value⟩ := kv
    by_cases hn : name = L "app_name"
    · simp [genLoop, hn, ih]
    · cases hm : matchTranslation ios_strings target_lang value with
      | some t => simp [genLoop, hn, hm, ih]
      | none => simp [genLoop, hn, hm, ih]

theorem dictLookup_genLoop_none (ios_strings : List (Str × IosEntry)) (target_lang : Str) :
    ∀ (l : List (Str × Str)) (n : Str), n ∉ l.map Prod.fst →
      dictLookup n (genLoop ios_strings target_lang l).1 = none := by
  intro l
  induction l with
  | nil => intro n _; rfl
  | cons kv rest ih =>
    obtain ⟨n', v'⟩ := kv
    intro n hnm
    have hne : n' ≠ n := by
      intro he
      exact hnm (by simp [he])
    have hrest : n ∉ rest.map Prod.fst := by
      intro hr
      exact hnm (by simp [hr])
    by_cases hap : n' = L "app_name"
    · simp only [genLoop, if_pos hap]
      exact ih n hrest
    · cases hm : matchTranslation ios_strings target_lang v' with
      | some t =>
        simp only [genLoop, if_neg hap, hm]
        show dictLookup n ((n', convert_ios_format_to_android t) ::
          (genLoop ios_strings target_lang rest).1) = none
        rw [dictLookup, if_neg hne]
        exact ih n hrest
      | none =>
        simp only [genLoop, if_neg hap, hm]
        exact ih n hrest

theorem dictLookup_genLoop (ios_strings : List (Str × IosEntry)) (target_lang : Str) :
    ∀ (l : List (Str × Str)) (n v : Str), (l.map Prod.fst).Nodup → (n, v) ∈ l →
      n ≠ L "app_name" →
      dictLookup n (genLoop ios_strings target_lang l).1 =
        (matchTranslation ios_strings target_lang v).map
          convert_ios_format_to_android := by
  intro l
  induction l with
  | nil =>
    intro n v _ hm _
    simp at hm
  | cons kv rest ih =>
    obtain ⟨n', v'⟩ := kv
    intro n v hnd hm hn
    rw [List.map_cons, List.nodup_cons] at hnd
    by_cases hap : n' = L "app_name"
    · have hmem : (n, v) ∈ rest := by
        rcases List.mem_cons.mp hm with he | he
        · exfalso
          have : n = n' := congrArg Prod.fst he
          exact hn (this.trans hap)
        · exact he
      simp only [genLoop, if_pos hap]
      exact ih n v hnd.2 hmem hn
    · cases hmt : matchTranslation ios_strings target_lang v' with
      | some t =>
        simp only [genLoop, if_neg hap, hmt]
        show dictLookup n ((n', convert_ios_format_to_android t) ::
          (genLoop ios_strings target_lang rest).1) = _
        by_cases hnn : n' = n
        · subst hnn
          have hv : v = v' := by
            rcases List.mem_cons.mp hm with he | he
            · exact congrArg Prod.snd he
            · exfalso
              exact hnd.1 (List.mem_map.mpr ⟨(n', v), he, rfl⟩)
          rw [dictLookup, if_pos rfl, hv, hmt]
          rfl
        · rw [dictLookup, if_neg hnn]
          have hmem : (n, v) ∈ rest := by
            rcases List.mem_cons.mp hm with he | he
            · exact absurd (congrArg Prod.fst he).symm hnn
            · exact he
          exact ih n v hnd.2 hmem hn
      | none =>
        simp only [genLoop, if_neg hap, hmt]
        by_cases hnn : n' = n
        · subst hnn
          have hv : v = v' := by
            rcases List.mem_cons.mp hm with he | he
            · exact congrArg Prod.snd he
            · exfalso
              exact hnd.1 (List.mem_map.mpr ⟨(n', v), he, rfl⟩)
          rw [hv, hmt]
          exact dictLookup_genLoop_none ios_strings target_lang rest n' hnd.1
        · have hmem : (n, v) ∈ rest := by
            rcases List.mem_cons.mp hm with he | he
            · exact absurd (congrArg Prod.fst he).symm hnn
            · exact he
          exact ih n v hnd.2 hmem hn

theorem entries_char {android_strings : List (Str × Str)}
    {ios_strings : List (Str × IosEntry)} {target_lang : Str}
    { text_to_names : List (Str × List Str)}
    (hnd : (android_strings.map Prod.fst).Nodup) :
    (generate_translated_strings_xml android_strings ios_strings target_lang
      text_to_names).entries =
      android_strings.filterMap fun kv =>
        if kv.1 = L "app_name" then none
        else (matchTranslation ios_strings target_lang kv.2).map
          fun t => (kv.1, escape_android_xml (convert_ios_format_to_android t)) := by
  show android_strings.filterMap (fun kv =>
    if kv.1 = L "app_name" then none
    else
      match dictLookup kv.1 (genLoop ios_strings target_lang android_strings).1 with
      | some t => some (kv.1, escape_android_xml t)
      | none => none) = _
  apply List.filterMap_congr
  intro kv hkv
  obtain ⟨n, v⟩ := kv
  by_cases hap : n = L "app_name"
  · simp [hap]
  · rw [if_neg hap, if_neg hap,
      dictLookup_genLoop ios_strings target_lang android_strings n v hnd hkv hap]
    cases matchTranslation ios_strings target_lang v with
    | some t => rfl
    | none => rfl

theorem map_fst_entries {android_strings : List (Str × Str)}
    {ios_strings : List (Str × IosEntry)} {target_lang : Str}
    { text_to_names : List (Str × List Str)}
    (hnd : (android_strings.map Prod.fst).Nodup) :
    ((generate_translated_strings_xml android_strings ios_strings target_lang
        text_to_names).entries.map Prod.fst) =
      android_strings.filterMap fun kv =>
        if kv.1 ≠ L "app_name" ∧
            (matchTranslation ios_strings target_lang kv.2).isSome = true then
          some kv.1
        else none := by
  rw [entries_char hnd, List.map_filterMap]
  apply List.filterMap_congr
  intro kv _
  by_cases hap : kv.1 = L "app_name"
  · simp [hap]
  · cases hm : matchTranslation ios_strings target_lang kv.2 with
    | some t => simp [hap, hm]
    | none => simp [hap, hm]

theorem nodup_filterMap_keys {l : List (Str × Str)} (f : Str × Str → Option Str)
    (hf : ∀ kv b, f kv = some b → b = kv.1) (hnd : (l.map Prod.fst).Nodup) :
    (l.filterMap f).Nodup := by
  induction l with
  | nil => exact List.nodup_nil
  | cons kv rest ih =>
    rw [List.map_cons, List.nodup_cons] at hnd
    rw [List.filterMap_cons]
    cases hfk : f kv with
    | none => exact ih hnd.2
    | some b =>
      rw [hf kv b hfk]
      refine List.nodup_cons.mpr ⟨?_, ih hnd.2⟩
      intro hmem
      rcases List.mem_filterMap.mp hmem with ⟨a, ha, hfa⟩
      have he : kv.1 = a.1 := hf a kv.1 hfa
      have hmm2 : a.1 ∈ rest.map Prod.fst := List.mem_map.mpr ⟨a, ha, rfl⟩
      rw [← he] at hmm2
      exact hnd.1 hmm2

theorem dictLookup_filterMap_none (h : Str × Str → Option Str) :
    ∀ (l : List (Str × Str)) (n : Str), n ∉ l.map Prod.fst →
      dictLookup n (l.filterMap fun kv => (h kv).map fun b => (kv.1, b)) = none := by
  intro l
  induction l with
  | nil => intro n _; rfl
  | cons kv rest ih =>
    intro n hnm
    have hne : kv.1 ≠ n := fun he => hnm (by simp [he])
    have hrest : n ∉ rest.map Prod.fst := fun hr => hnm (by simp [hr])
    rw [List.filterMap_cons]
    cases hk : (h kv).map fun b => (kv.1, b) with
    | none => exact ih n hrest
    | some p =>
      rcases Option.map_eq_some'.mp hk with ⟨b, _, hb⟩
      rw [← hb, dictLookup, if_neg hne]
      exact ih n hrest

theorem dictLookup_filterMap_keyed (h : Str × Str → Option Str) :
    ∀ (l : List (Str × Str)) (n v : Str), (l.map Prod.fst).Nodup → (n, v) ∈ l →
      dictLookup n (l.filterMap fun kv => (h kv).map fun b => (kv.1, b)) = h (n, v) := by
  intro l
  induction l with
  | nil =>
    intro n v _ hm
    simp at hm
  | cons kv rest ih =>
    obtain ⟨n', v'⟩ := kv
    intro n v hnd hm
    rw [List.map_cons, List.nodup_cons] at hnd
    rw [List.filterMap_cons]
    by_cases hnn : n' = n
    · subst hnn
      have hv : v = v' := by
        rcases List.mem_cons.mp hm with he | he
        · exact congrArg Prod.snd he
        · exact absurd (List.mem_map.mpr ⟨(n', v), he, rfl⟩) hnd.1
      subst hv
      cases hk : h (n', v) with
      | none =>
        show dictLookup n' (rest.filterMap fun kv => (h kv).map fun b => (kv.1, b)) = _
        rw [dictLookup_filterMap_none h rest n' hnd.1]
      | some b =>
        show dictLookup n' ((n', b) :: rest.filterMap fun kv => (h kv).map fun b => (kv.1, b)) = _
        rw [dictLookup, if_pos rfl]
    · have hmem : (n, v) ∈ rest := by
        rcases List.mem_cons.mp hm with he | he
        · exact absurd (congrArg Prod.fst he).symm hnn
        · exact he
      cases hk : h (n', v') with
      | none =>
        show dictLookup n (rest.filterMap fun kv => (h kv).map fun b => (kv.1, b)) = _
        exact ih n v hnd.2 hmem
      | some b =>
        show dictLookup n ((n', b) :: rest.filterMap fun kv => (h kv).map fun b => (kv.1, b)) = _
        rw [dictLookup, if_neg hnn]
        exact ih n v hnd.2 hmem

theorem dictLookup_entries {android_strings : List (Str × Str)}
    {ios_strings : List (Str × IosEntry)} {target_lang : Str}
    { text_to_names : List (Str × List Str)}
    (hnd : (android_strings.map Prod.fst).Nodup) {n v : Str}
    (hm : (n, v) ∈ android_strings) (hn : n ≠ L "app_name") :
    dictLookup n (generate_translated_strings_xml android_strings ios_strings
        target_lang text_to_names).entries =
      (matchTranslation ios_strings target_lang v).map
        fun t => escape_android_xml (convert_ios_format_to_android t) := by
  rw [entries_char hnd]
  have hfe : (fun kv : Str × Str =>
      if kv.1 = L "app_name" then none
      else (matchTranslation ios_strings target_lang kv.2).map
        fun t => (kv.1, escape_android_xml (convert_ios_format_to_android t))) =
      fun kv : Str × Str =>
        (if kv.1 = L "app_name" then none
         else (matchTranslation ios_strings target_lang kv.2).map
           fun t => escape_android_xml (convert_ios_format_to_android t)).map
          fun b => (kv.1, b) := by
    funext kv
    by_cases hap : kv.1 = L "app_name"
    · simp [hap]
    · cases matchTranslation ios_strings target_lang kv.2 <;> simp [hap]
  rw [hfe, dictLookup_filterMap_keyed _ android_strings n v hnd hm, if_neg hn]

theorem nodup_key_fun {l : List (Str × Str)} (hnd : (l.map Prod.fst).Nodup)
    {n v v' : Str} (h1 : (n, v) ∈ l) (h2 : (n, v') ∈ l) : v = v' := by
  induction l with
  | nil => simp at h1
  | cons kv rest ih =>
    rw [List.map_cons, List.nodup_cons] at hnd
    rcases List.mem_cons.mp h1 with he1 | he1
    · rcases List.mem_cons.mp h2 with he2 | he2
      · exact congrArg Prod.snd (he1.trans he2.symm)
      · exfalso
        have : n = kv.1 := congrArg Prod.fst he1
        exact hnd.1 (this ▸ List.mem_map.mpr ⟨(n, v'), he2, rfl⟩)
    · rcases List.mem_cons.mp h2 with he2 | he2
      · exfalso
        have : n = kv.1 := congrArg Prod.fst he2
        exact hnd.1 (this ▸ List.mem_map.mpr ⟨(n, v), he1, rfl⟩)
      · exact ih hnd.2 he1 he2

theorem infix_of_prefix_my {l1 l2 : Str} (h : l1 <+: l2) : l1 <:+: l2 :=
  List.infix_iff_prefix_suffix.mpr ⟨l2, h, List.suffix_refl _⟩

example : convert_ios_format_to_android (L "%1$@ Artikel") = L "%1$s Artikel" := by decide
example : convert_ios_format_to_android (L "%@ %lld %ld %llu %lu %li %f %.0f") =
    L "%s %d %d %d %d %d %f %.0f" := by decide
example : escape_android_xml (L "a<b>&c") = L "a&lt;b&gt;&amp;c" := by decide
example : escape_android_xml (L "@x\"y") = L "\\@x\\\"y" := by decide
example : unescape_android_xml (L "a&lt;b&gt;&amp;c") = L "a<b>&c" := by decide
example : normalize_for_matching (L "  a  b\tc ") = L "a b c" := by decide
example : genericize (L "%1$s %d x") = L "%1$@ %lld x" := by decide

/-! ### Claim theorems -/

/-- C1: for every destination identifier (other than `app_name`) and target
locale, the matcher resolves a translation by trying, in order with first
success winning, (1) exact lookup of the unescaped English text, (2) a
linear scan over source identifiers comparing normalized text, (3) lookup of
the text with placeholders rewritten to source style; a translation is
accepted only when a non-empty value exists for the locale, and an
unresolved identifier is recorded as unmatched and excluded from the
locale's output with no error raised. -/
theorem C1_matcher_resolution (android_strings : List (Str × Str))
    (ios_strings : List (Str × IosEntry)) (target_lang : Str)
    ( text_to_names : List (Str × List Str)) :
    (∀ english_value : Str,
      matchTranslation ios_strings target_lang english_value =
        ((exactMatchSpec ios_strings target_lang
            (unescape_android_xml english_value)).or
          ((normalizedMatchSpec ios_strings target_lang
              (unescape_android_xml english_value)).or
            (genericMatchSpec ios_strings target_lang
              (unescape_android_xml english_value))))) ∧
    (∀ (e : IosEntry) (lang v : Str), getTranslation e lang = some v → v ≠ []) ∧
    ((android_strings.map Prod.fst).Nodup →
      ∀ n v : Str, (n, v) ∈ android_strings → n ≠ L "app_name" →
        matchTranslation ios_strings target_lang v = none →
        n ∈ (generate_translated_strings_xml android_strings ios_strings target_lang
          text_to_names).unmatched_names ∧
        n ∉ ((generate_translated_strings_xml android_strings ios_strings target_lang
          text_to_names).entries.map Prod.fst)) := by
  refine ⟨fun v => matchTranslation_eq_or ios_strings target_lang v,
    fun e lang v h => getTranslation_ne_nil h, fun hnd n v hm hn hnone => ⟨?_, ?_⟩⟩
  · show n ∈ (genLoop ios_strings target_lang android_strings).2.2
    rw [genLoop_unmatched]
    refine List.mem_filterMap.mpr ⟨(n, v), hm, ?_⟩
    show (if n = L "app_name" then none
      else
        match matchTranslation ios_strings target_lang v with
        | some _ => none
        | none => some n) = some n
    rw [if_neg hn, hnone]
  · rw [map_fst_entries hnd]
    intro hmem
    rcases List.mem_filterMap.mp hmem with ⟨⟨k1, k2⟩, hkv, hcond⟩
    by_cases hc : k1 ≠ L "app_name" ∧
        (matchTranslation ios_strings target_lang k2).isSome = true
    · rw [if_pos hc] at hcond
      have hkn : k1 = n := Option.some.inj hcond
      subst hkn
      have hveq : k2 = v := nodup_key_fun hnd hkv hm
      rw [hveq, hnone] at hc
      simp at hc
    · rw [if_neg hc] at hcond
      exact Option.noConfusion hcond

theorem C1_matcher_resolution_witness :
    (androidW.map Prod.fst).Nodup ∧
    matchTranslation iosW (L "de") (L "Hello") =
      ((exactMatchSpec iosW (L "de") (unescape_android_xml (L "Hello"))).or
        ((normalizedMatchSpec iosW (L "de") (unescape_android_xml (L "Hello"))).or
          (genericMatchSpec iosW (L "de") (unescape_android_xml (L "Hello"))))) ∧
    matchTranslation iosW (L "de") (L "Bye") = none ∧
    (L "missing" ∈ genW.unmatched_names ∧
      L "missing" ∉ (genW.entries.map Prod.fst)) :=
  ⟨by decide,
    (C1_matcher_resolution androidW iosW (L "de") []).1 (L "Hello"),
    by decide,
    (C1_matcher_resolution androidW iosW (L "de") []).2.2 (by decide)
      (L "missing") (L "Bye") (by decide) (by decide) (by decide)⟩

/-- C2: the converter rewrites positional `%N$@` to `%N$s` for every digit
run `N`, bare `%@` to `%s`, and the long-integer specifiers `%lld`, `%ld`,
`%llu`, `%lu`, `%li` to `%d`, while `%f` and `%.0f` pass through unchanged;
in particular `%1$@ Artikel` yields `%1$s Artikel`, never `%1$d`. -/
theorem C2_convert_rewrite_table :
    (∀ ds : Str, ds ≠ [] → (∀ c ∈ ds, c.isDigit = true) →
      convert_ios_format_to_android ('%' :: (ds ++ ['$', '@'])) =
        '%' :: (ds ++ ['$', 's'])) ∧
    convert_ios_format_to_android (L "%@") = L "%s" ∧
    convert_ios_format_to_android (L "%lld") = L "%d" ∧
    convert_ios_format_to_android (L "%ld") = L "%d" ∧
    convert_ios_format_to_android (L "%llu") = L "%d" ∧
    convert_ios_format_to_android (L "%lu") = L "%d" ∧
    convert_ios_format_to_android (L "%li") = L "%d" ∧
    convert_ios_format_to_android (L "%f") = L "%f" ∧
    convert_ios_format_to_android (L "%.0f") = L "%.0f" ∧
    convert_ios_format_to_android (L "%1$@ Artikel") = L "%1$s Artikel" :=
  ⟨convert_positional, by decide, by decide, by decide, by decide, by decide,
    by decide, by decide, by decide, by decide⟩

theorem C2_convert_rewrite_table_witness :
    (['1'] ≠ ([] : Str) ∧ ∀ c ∈ ['1'], c.isDigit = true) ∧
    convert_ios_format_to_android ('%' :: (['1'] ++ ['$', '@'])) =
      '%' :: (['1'] ++ ['$', 's']) :=
  ⟨⟨by decide, by decide⟩,
    C2_convert_rewrite_table.1 ['1'] (by decide) (by decide)⟩

/-- C3: every identifier appearing in a generated locale document is a
member of the destination record set, and `app_name` never appears,
regardless of match success. -/
theorem C3_output_names_subset (android_strings : List (Str × Str))
    (ios_strings : List (Str × IosEntry)) (target_lang : Str)
    ( text_to_names : List (Str × List Str)) :
    ∀ n : Str,
      n ∈ ((generate_translated_strings_xml android_strings ios_strings target_lang
        text_to_names).entries.map Prod.fst) →
      n ∈ android_strings.map Prod.fst ∧ n ≠ L "app_name" := by
  intro n hmem
  have hshape : (generate_translated_strings_xml android_strings ios_strings
      target_lang text_to_names).entries =
      android_strings.filterMap (fun kv =>
        if kv.1 = L "app_name" then none
        else
          match dictLookup kv.1 (genLoop ios_strings target_lang android_strings).1 with
          | some t => some (kv.1, escape_android_xml t)
          | none => none) := rfl
  rw [hshape, List.map_filterMap] at hmem
  rcases List.mem_filterMap.mp hmem with ⟨⟨k1, k2⟩, hkv, hcond⟩
  by_cases hap : k1 = L "app_name"
  · rw [if_pos hap] at hcond
    exact absurd hcond (by simp)
  · rw [if_neg hap] at hcond
    cases hdl : dictLookup k1 (genLoop ios_strings target_lang android_strings).1 with
    | none =>
      rw [hdl] at hcond
      exact absurd hcond (by simp)
    | some t =>
      rw [hdl] at hcond
      have hkn : k1 = n := by simpa using hcond
      subst hkn
      exact ⟨List.mem_map.mpr ⟨(k1, k2), hkv, rfl⟩, hap⟩

theorem C3_output_names_subset_witness :
    L "greet" ∈ (genW.entries.map Prod.fst) ∧
    (L "greet" ∈ androidW.map Prod.fst ∧ L "greet" ≠ L "app_name") :=
  ⟨by decide, C3_output_names_subset androidW iosW (L "de") [] (L "greet") (by decide)⟩

/-- C4: for a string free of pre-existing escape sequences (no
backslash-escaped quote, double quote or at-sign, no `&amp;`, `&lt;` or
`&gt;` entity), escaping after unescaping gives the same result as escaping
directly. -/
theorem C4_escape_unescape_roundtrip (s : Str)
    (h1 : ¬ (['\\', apos] <:+: s)) (h2 : ¬ (['\\', '\"'] <:+: s))
    (h3 : ¬ (L "&amp;" <:+: s)) (h4 : ¬ (L "&lt;" <:+: s))
    (h5 : ¬ (L "&gt;" <:+: s)) (h6 : ¬ (['\\', '@'] <:+: s)) :
    escape_android_xml (unescape_android_xml s) = escape_android_xml s := by
  rw [unescape_eq_self (noOcc_iff_no_occurrence.mpr h1) (noOcc_iff_no_occurrence.mpr h2)
    (noOcc_iff_no_occurrence.mpr h3) (noOcc_iff_no_occurrence.mpr h4)
    (noOcc_iff_no_occurrence.mpr h5) (fun hp => h6 (infix_of_prefix_my hp))]

theorem C4_escape_unescape_roundtrip_witness :
    (¬ (['\\', apos] <:+: L "a&b<c>d@e") ∧ ¬ (['\\', '\"'] <:+: L "a&b<c>d@e") ∧
      ¬ (L "&amp;" <:+: L "a&b<c>d@e") ∧ ¬ (L "&lt;" <:+: L "a&b<c>d@e") ∧
      ¬ (L "&gt;" <:+: L "a&b<c>d@e") ∧ ¬ (['\\', '@'] <:+: L "a&b<c>d@e")) ∧
    escape_android_xml (unescape_android_xml (L "a&b<c>d@e")) =
      escape_android_xml (L "a&b<c>d@e") :=
  ⟨⟨by decide, by decide, by decide, by decide, by decide, by decide⟩,
    C4_escape_unescape_roundtrip (L "a&b<c>d@e") (by decide) (by decide) (by decide)
      (by decide) (by decide) (by decide)⟩

/-- C5: applying `convert_ios_format_to_android` twice yields the same
result as applying it once, for every input string. -/
theorem C5_convert_idempotent (s : Str) :
    convert_ios_format_to_android (convert_ios_format_to_android s) =
      convert_ios_format_to_android s :=
  convert_id_of_clean (convert_clean s)

/-- C6: with distinct destination identifiers, the generated document
contains exactly one entry per successfully matched identifier other than
`app_name`, in the original destination order (the emitted name list equals
the in-order filtering of the destination list by match success), and the
emitted names are pairwise distinct; unmatched identifiers are silently
omitted. -/
theorem C6_entries_exactly_matched (android_strings : List (Str × Str))
    (ios_strings : List (Str × IosEntry)) (target_lang : Str)
    ( text_to_names : List (Str × List Str))
    (hnd : (android_strings.map Prod.fst).Nodup) :
    ((generate_translated_strings_xml android_strings ios_strings target_lang
        text_to_names).entries.map Prod.fst =
      android_strings.filterMap fun kv =>
        if kv.1 ≠ L "app_name" ∧
            (matchTranslation ios_strings target_lang kv.2).isSome = true then
          some kv.1
        else none) ∧
    ((generate_translated_strings_xml android_strings ios_strings target_lang
      text_to_names).entries.map Prod.fst).Nodup := by
  refine ⟨map_fst_entries hnd, ?_⟩
  rw [map_fst_entries hnd]
  refine nodup_filterMap_keys _ ?_ hnd
  intro kv b hfb
  by_cases hc : kv.1 ≠ L "app_name" ∧
      (matchTranslation ios_strings target_lang kv.2).isSome = true
  · rw [if_pos hc] at hfb
    exact (Option.some.inj hfb).symm
  · rw [if_neg hc] at hfb
    exact Option.noConfusion hfb

theorem C6_entries_exactly_matched_witness :
    (androidW.map Prod.fst).Nodup ∧
    (genW.entries.map Prod.fst =
      androidW.filterMap fun kv =>
        if kv.1 ≠ L "app_name" ∧
            (matchTranslation iosW (L "de") kv.2).isSome = true then
          some kv.1
        else none) ∧
    (genW.entries.map Prod.fst).Nodup :=
  ⟨by decide,
    (C6_entries_exactly_matched androidW iosW (L "de") [] (by decide)).1,
    (C6_entries_exactly_matched androidW iosW (L "de") [] (by decide)).2⟩

/-- C7: if either required input file is missing, the run exits with status
1, writes nothing, and prints a message containing the missing path; when
both inputs exist and processing completes, the exit status is 0 and no
error is printed. -/
theorem C7_exit_codes (ios_path android_path : Str) (ios_exists android_exists : Bool)
    (locale_dirs : List Str) :
    (ios_exists = false ∨ android_exists = false →
      (main_model ios_path android_path ios_exists android_exists locale_dirs).1 = 1 ∧
      (main_model ios_path android_path ios_exists android_exists locale_dirs).2.2 = [] ∧
      ∃ m ∈ (main_model ios_path android_path ios_exists android_exists
        locale_dirs).2.1, ios_path <:+ m ∨ android_path <:+ m) ∧
    (ios_exists = true → android_exists = true →
      (main_model ios_path android_path ios_exists android_exists locale_dirs).1 = 0 ∧
      (main_model ios_path android_path ios_exists android_exists
        locale_dirs).2.1 = []) := by
  cases ios_exists
  · exact ⟨fun _ => ⟨rfl, rfl, ⟨_, List.mem_singleton.mpr rfl,
      Or.inl (List.suffix_append _ _)⟩⟩, fun h _ => Bool.noConfusion h⟩
  · cases android_exists
    · refine ⟨fun _ => ⟨rfl, rfl, ⟨_, List.mem_singleton.mpr rfl,
        Or.inr (List.suffix_append _ _)⟩⟩, fun _ h => Bool.noConfusion h⟩
    · refine ⟨fun h => ?_, fun _ _ => ⟨rfl, rfl⟩⟩
      rcases h with h | h <;> exact Bool.noConfusion h

theorem C7_exit_codes_witness :
    ((main_model (L "/ios/a.xcstrings") (L "/android/strings.xml") false true
        [L "values-de"]).1 = 1 ∧
      (main_model (L "/ios/a.xcstrings") (L "/android/strings.xml") false true
        [L "values-de"]).2.2 = [] ∧
      ∃ m ∈ (main_model (L "/ios/a.xcstrings") (L "/android/strings.xml") false true
        [L "values-de"]).2.1,
        L "/ios/a.xcstrings" <:+ m ∨ L "/android/strings.xml" <:+ m) ∧
    ((main_model (L "/ios/a.xcstrings") (L "/android/strings.xml") true true
        [L "values-de"]).1 = 0 ∧
      (main_model (L "/ios/a.xcstrings") (L "/android/strings.xml") true true
        [L "values-de"]).2.1 = []) :=
  ⟨(C7_exit_codes (L "/ios/a.xcstrings") (L "/android/strings.xml") false true
      [L "values-de"]).1 (Or.inl rfl),
    (C7_exit_codes (L "/ios/a.xcstrings") (L "/android/strings.xml") true true
      [L "values-de"]).2 rfl rfl⟩

/-- C8: two destination identifiers with identical stored English text
resolve identically: with distinct identifiers, both receive the same
translated value in the translations map and the same escaped text in the
generated entries, for every locale. -/
theorem C8_same_text_same_translation (android_strings : List (Str × Str))
    (ios_strings : List (Str × IosEntry)) (target_lang : Str)
    ( text_to_names : List (Str × List Str)) (n1 n2 v : Str)
    (hnd : (android_strings.map Prod.fst).Nodup)
    (h1 : (n1, v) ∈ android_strings) (h2 : (n2, v) ∈ android_strings)
    (hn1 : n1 ≠ L "app_name") (hn2 : n2 ≠ L "app_name") :
    dictLookup n1 (generate_translated_strings_xml android_strings ios_strings
        target_lang text_to_names).translations =
      dictLookup n2 (generate_translated_strings_xml android_strings ios_strings
        target_lang text_to_names).translations ∧
    dictLookup n1 (generate_translated_strings_xml android_strings ios_strings
        target_lang text_to_names).entries =
      dictLookup n2 (generate_translated_strings_xml android_strings ios_strings
        target_lang text_to_names).entries := by
  constructor
  · have e1 : dictLookup n1 (generate_translated_strings_xml android_strings
        ios_strings target_lang text_to_names).translations =
        (matchTranslation ios_strings target_lang v).map
          convert_ios_format_to_android := by
      show dictLookup n1 (genLoop ios_strings target_lang android_strings).1 = _
      exact dictLookup_genLoop ios_strings target_lang android_strings n1 v hnd h1 hn1
    have e2 : dictLookup n2 (generate_translated_strings_xml android_strings
        ios_strings target_lang text_to_names).translations =
        (matchTranslation ios_strings target_lang v).map
          convert_ios_format_to_android := by
      show dictLookup n2 (genLoop ios_strings target_lang android_strings).1 = _
      exact dictLookup_genLoop ios_strings target_lang android_strings n2 v hnd h2 hn2
    rw [e1, e2]
  · rw [dictLookup_entries hnd h1 hn1, dictLookup_entries hnd h2 hn2]

theorem C8_same_text_same_translation_witness :
    (androidOkW.map Prod.fst).Nodup ∧
    dictLookup (L "ok1") genOkW.translations = dictLookup (L "ok2") genOkW.translations ∧
    dictLookup (L "ok1") genOkW.entries = dictLookup (L "ok2") genOkW.entries :=
  ⟨by decide,
    (C8_same_text_same_translation androidOkW iosOkW (L "de") [] (L "ok1") (L "ok2")
      (L "OK") (by decide) (by decide) (by decide) (by decide) (by decide)).1,
    (C8_same_text_same_translation androidOkW iosOkW (L "de") [] (L "ok1") (L "ok2")
      (L "OK") (by decide) (by decide) (by decide) (by decide) (by decide)).2⟩

/-- C9: `generate_translated_strings_xml` never reads its `text_to_names`
parameter, so its entire result (document, entries, match count, unmatched
list) is identical for any two values of that argument. -/
theorem C9_ignores_reverse_index (android_strings : List (Str × Str))
    (ios_strings : List (Str × IosEntry)) (target_lang : Str)
    (t1 t2 : List (Str × List Str)) :
    generate_translated_strings_xml android_strings ios_strings target_lang t1 =
      generate_translated_strings_xml android_strings ios_strings target_lang t2 := rfl

/-- C10: the escaped output contains no raw `<` and no raw `>`, and every
`&` in it starts one of the entities `&amp;`, `&lt;`, `&gt;`. -/
theorem C10_escape_wellformed (s : Str) :
    '<' ∉ escape_android_xml s ∧ '>' ∉ escape_android_xml s ∧
      AmpOk (escape_android_xml s) := by
  by_cases hs : s = []
  · subst hs
    have he : escape_android_xml ([] : Str) = [] := rfl
    rw [he]
    exact ⟨by simp, by simp, AmpOk_nil⟩
  · rw [escape_eq_expand hs]
    have hlt2 : '<' ∉ charExpand escF2 (charExpand escF1 s) := lt_not_mem_escF2 _
    have hlt3 : '<' ∉ charExpand escF3 (charExpand escF2 (charExpand escF1 s)) :=
      not_mem_charExpand_pres escF3_id_or_lt_free hlt2
    have hlt4 : '<' ∉ charExpand escF4 (charExpand escF3 (charExpand escF2
        (charExpand escF1 s))) :=
      not_mem_charExpand_pres (fun c => escF4_id_or_free c '<' (by decide)) hlt3
    have hlt5 : '<' ∉ charExpand escF5 (charExpand escF4 (charExpand escF3
        (charExpand escF2 (charExpand escF1 s)))) :=
      not_mem_charExpand_pres (fun c => escF5_id_or_free c '<' (by decide)) hlt4
    have hgt3 : '>' ∉ charExpand escF3 (charExpand escF2 (charExpand escF1 s)) :=
      gt_not_mem_escF3 _
    have hgt4 : '>' ∉ charExpand escF4 (charExpand escF3 (charExpand escF2
        (charExpand escF1 s))) :=
      not_mem_charExpand_pres (fun c => escF4_id_or_free c '>' (by decide)) hgt3
    have hgt5 : '>' ∉ charExpand escF5 (charExpand escF4 (charExpand escF3
        (charExpand escF2 (charExpand escF1 s)))) :=
      not_mem_charExpand_pres (fun c => escF5_id_or_free c '>' (by decide)) hgt4
    have hA1 : AmpOk (charExpand escF1 s) := AmpOk_escF1 s
    have hb2 : ∀ c, escF2 c = [c] ∨ escF2 c = L "&lt;" ∨ escF2 c = L "&gt;" ∨
        escF2 c = ['\\', apos] ∨ escF2 c = ['\\', '\"'] := by
      intro c
      by_cases hc : c = '<'
      · subst hc
        exact Or.inr (Or.inl rfl)
      · exact Or.inl (by simp [escF2, hc])
    have hb3 : ∀ c, escF3 c = [c] ∨ escF3 c = L "&lt;" ∨ escF3 c = L "&gt;" ∨
        escF3 c = ['\\', apos] ∨ escF3 c = ['\\', '\"'] := by
      intro c
      by_cases hc : c = '>'
      · subst hc
        exact Or.inr (Or.inr (Or.inl rfl))
      · exact Or.inl (by simp [escF3, hc])
    have hb4 : ∀ c, escF4 c = [c] ∨ escF4 c = L "&lt;" ∨ escF4 c = L "&gt;" ∨
        escF4 c = ['\\', apos] ∨ escF4 c = ['\\', '\"'] := by
      intro c
      by_cases hc : c = apos
      · subst hc
        exact Or.inr (Or.inr (Or.inr (Or.inl rfl)))
      · exact Or.inl (by simp [escF4, hc])
    have hb5 : ∀ c, escF5 c = [c] ∨ escF5 c = L "&lt;" ∨ escF5 c = L "&gt;" ∨
        escF5 c = ['\\', apos] ∨ escF5 c = ['\\', '\"'] := by
      intro c
      by_cases hc : c = '\"'
      · subst hc
        exact Or.inr (Or.inr (Or.inr (Or.inr rfl)))
      · exact Or.inl (by simp [escF5, hc])
    have hA2 : AmpOk (charExpand escF2 (charExpand escF1 s)) :=
      AmpOk_charExpand (by decide) hb2 hA1
    have hA3 : AmpOk (charExpand escF3 (charExpand escF2 (charExpand escF1 s))) :=
      AmpOk_charExpand (by decide) hb3 hA2
    have hA4 : AmpOk (charExpand escF4 (charExpand escF3 (charExpand escF2
        (charExpand escF1 s)))) :=
      AmpOk_charExpand (by decide) hb4 hA3
    have hA5 : AmpOk (charExpand escF5 (charExpand escF4 (charExpand escF3
        (charExpand escF2 (charExpand escF1 s))))) :=
      AmpOk_charExpand (by decide) hb5 hA4
    by_cases hat : (charExpand escF5 (charExpand escF4 (charExpand escF3
        (charExpand escF2 (charExpand escF1 s))))).take 1 = ['@']
    · rw [if_pos hat]
      refine ⟨?_, ?_, AmpOk_cons_ne (by decide) hA5⟩
      · intro hm
        rcases List.mem_cons.mp hm with h | h
        · exact absurd h (by decide)
        · exact hlt5 h
      · intro hm
        rcases List.mem_cons.mp hm with h | h
        · exact absurd h (by decide)
        · exact hgt5 h
    · rw [if_neg hat]
      exact ⟨hlt5, hgt5, hA5⟩

theorem C10_escape_wellformed_witness :
    '<' ∉ escape_android_xml (L "a<b&c") ∧ '>' ∉ escape_android_xml (L "a<b&c") ∧
      ((L "&amp;c") <:+ escape_android_xml (L "a<b&c") ∧
        patOk (L "&amp;c")) :=
  ⟨(C10_escape_wellformed (L "a<b&c")).1, (C10_escape_wellformed (L "a<b&c")).2.1,
    by decide,
    (C10_escape_wellformed (L "a<b&c")).2.2 (L "&amp;c") (by decide) (by decide)⟩
